import Mathlib

/-!
# Verification of the Verse structural chunking engine

Shallow embedding of `src/lib/verse-chunker.js` (smart-coding-mcp).
The engine converts raw source text into a list of chunks in three passes:
the indentation-aware segmenter (`chunkVerseFile`'s scan loop), the
nested-member extractor (`extractNestedMethods`) and the token-budget
splitter (`applyTokenLimits`).

The collaborators `estimateTokens` and `getChunkingParams` live in
`tokenizer.js`, which is not part of the sources; per the specification
(§6) they are inputs to the engine, so every definition below is
parameterized by an estimator `est : String → Nat` and by the resolved
`targetTokens` / `overlapTokens` values.

JavaScript strings are modelled as `String` (lists of characters); the
regular expressions of `PATTERNS` are translated into explicit character
scanners that implement the same matching semantics on the inputs the
engine feeds them (single lines of text).
-/

namespace VC

/-! ## Character classes (JavaScript `\s` and `\w` for the engine's input) -/

/-- JavaScript whitespace class `\s` restricted to the characters that can occur here. -/
def isWs (c : Char) : Bool :=
  c = ' ' || c = '\t' || c = '\n' || c = '\r' || c = '\x0b' || c = '\x0c'

/-- JavaScript word class `\w` = `[A-Za-z0-9_]`. -/
def isWord (c : Char) : Bool :=
  ('a' ≤ c && c ≤ 'z') || ('A' ≤ c && c ≤ 'Z') || ('0' ≤ c && c ≤ '9') || c = '_'

/-! ## String helpers mirroring the JavaScript string operations -/

/-- Right trim on character lists. -/
def rtrimL (cs : List Char) : List Char := (cs.reverse.dropWhile isWs).reverse

/-- `String.prototype.trim` on character lists. -/
def trimL (cs : List Char) : List Char := rtrimL (cs.dropWhile isWs)

/-- `String.prototype.trim`. -/
def jsTrim (s : String) : String := String.mk (trimL s.data)

/-- `String.prototype.slice(0, n)`. -/
def jsSlice (n : Nat) (s : String) : String := String.mk (s.data.take n)

/-- `content.split(/\r?\n/)` on character lists: both `"\r\n"` and `"\n"` separate
lines; a lone `'\r'` does not. -/
def splitLinesL : List Char → List (List Char)
  | [] => [[]]
  | '\r' :: '\n' :: rest => [] :: splitLinesL rest
  | c :: rest =>
    if c = '\n' then [] :: splitLinesL rest
    else
      match splitLinesL rest with
      | [] => [[c]]
      | l :: ls => (c :: l) :: ls

/-- `content.split(/\r?\n/)`. -/
def splitLines (s : String) : List String := (splitLinesL s.data).map String.mk

/-- `lines.join('\n')` on character lists. -/
def joinNlL : List (List Char) → List Char
  | [] => []
  | x :: xs =>
    match xs with
    | [] => x
    | _ :: _ => x ++ '\n' :: joinNlL xs

/-- `lines.join('\n')`. -/
def joinNl (ls : List String) : String := String.mk (joinNlL (ls.map String.data))

/-- `text.split('\n')` on character lists. -/
def splitNlL : List Char → List (List Char)
  | [] => [[]]
  | c :: rest =>
    if c = '\n' then [] :: splitNlL rest
    else
      match splitNlL rest with
      | [] => [[c]]
      | l :: ls => (c :: l) :: ls

/-- `text.split('\n')`. -/
def splitNl (s : String) : List String := (splitNlL s.data).map String.mk

/-! ## The `PATTERNS` table

Each regular expression of `PATTERNS` becomes a scanner over the line's
characters.  Anchored patterns (`^...`) scan from the start; the two
signature-terminator patterns are unanchored and test every position.
The iterated specifier group `(<[^>]+>)*` is consumed greedily, which
matches the regex semantics: a specifier starts with `'<'`, a character
that neither `\s*` nor `:=`/`:`/`(` can begin with, so no backtracking
over the group can turn a failure into a success. -/

/-- Match one specifier group `<[^>]+>` at the front, returning the remainder. -/
def specTail (cs : List Char) : Option (List Char) :=
  match cs with
  | '<' :: cs1 =>
    match cs1.dropWhile (fun c => c != '>') with
    | '>' :: cs2 => if (cs1.takeWhile (fun c => c != '>')).isEmpty then none else some cs2
    | _ => none
  | _ => none

/-- Iterate `specTail` with explicit fuel.  Each successful `specTail` consumes
at least one character, so fuel equal to the length of the input suffices for
the iteration to run until `specTail` fails. -/
def specsRunAux : Nat → List Char → List Char
  | 0, cs => cs
  | fuel + 1, cs =>
    match specTail cs with
    | some rest => specsRunAux fuel rest
    | none => cs

/-- Consume the iterated specifier group `(<[^>]+>)*` greedily. -/
def specsRun (cs : List Char) : List Char := specsRunAux cs.length cs

/-- `PATTERNS.classOrStruct`:
`/^(\s*)(\w+)(<[^>]+>)*\s*:=\s*(class|struct|interface|enum)/`.
Returns the captured indentation length and the matched type keyword. -/
def classOrStruct (s : String) : Option (Nat × String) :=
  let cs := s.data
  let ind := cs.takeWhile isWs
  let r1 := cs.dropWhile isWs
  if (r1.takeWhile isWord).isEmpty then none
  else
    let r2 := specsRun (r1.dropWhile isWord)
    match r2.dropWhile isWs with
    | ':' :: '=' :: r4 =>
      let r5 := r4.dropWhile isWs
      if ("class".data).isPrefixOf r5 then some (ind.length, "class")
      else if ("struct".data).isPrefixOf r5 then some (ind.length, "struct")
      else if ("interface".data).isPrefixOf r5 then some (ind.length, "interface")
      else if ("enum".data).isPrefixOf r5 then some (ind.length, "enum")
      else none
    | _ => none

/-- `PATTERNS.moduleDecl`: `/^(\s*)(\w+)\s*:=\s*module:/`. -/
def moduleDecl (s : String) : Option Nat :=
  let cs := s.data
  let ind := cs.takeWhile isWs
  let r1 := cs.dropWhile isWs
  if (r1.takeWhile isWord).isEmpty then none
  else
    match (r1.dropWhile isWord).dropWhile isWs with
    | ':' :: '=' :: r4 =>
      if ("module:".data).isPrefixOf (r4.dropWhile isWs) then some ind.length else none
    | _ => none

/-- `PATTERNS.extensionStart`: `/^(\s*)\([^)]+\)\.(\w+)/`. -/
def extensionStart (s : String) : Option Nat :=
  let cs := s.data
  let ind := cs.takeWhile isWs
  match cs.dropWhile isWs with
  | '(' :: r2 =>
    if (r2.takeWhile (fun c => c != ')')).isEmpty then none
    else
      match r2.dropWhile (fun c => c != ')') with
      | ')' :: '.' :: r3 =>
        if (r3.takeWhile isWord).isEmpty then none else some ind.length
      | _ => none
  | _ => none

/-- `PATTERNS.functionStart`: `/^(\s*)(\w+)(<[^>]+>)?\s*\(/`. -/
def functionStart (s : String) : Option Nat :=
  let cs := s.data
  let ind := cs.takeWhile isWs
  let r1 := cs.dropWhile isWs
  if (r1.takeWhile isWord).isEmpty then none
  else
    let r2 := r1.dropWhile isWord
    let r3 := match specTail r2 with
      | some rest => rest
      | none => r2
    match r3.dropWhile isWs with
    | '(' :: _ => some ind.length
    | _ => none

/-- The tail `\s*\S+\s*=\s*$` (as it follows the `:` in the terminator patterns):
after optional whitespace a nonempty whitespace-free token, optional whitespace,
`'='`, optional whitespace, end of line.  Backtracking inside `\S+` lets the
final `'='` be the last character of the token run, so the condition is: the
right-trimmed text ends in `'='` and what precedes that `'='`, trimmed, is a
nonempty run without whitespace. -/
def eqTail (cs : List Char) : Bool :=
  let t := rtrimL cs
  match t.getLast? with
  | some '=' =>
    let r := trimL t.dropLast
    !r.isEmpty && r.all (fun c => !isWs c)
  | _ => false

/-- The tail `\s*\S+\s*$`: the trimmed text is a nonempty run without whitespace. -/
def plainTail (cs : List Char) : Bool :=
  let r := trimL cs
  !r.isEmpty && r.all (fun c => !isWs c)

/-- After a `')'`: `\s*(<[^>]+>)*\s*:` followed by `eqTail`. -/
def afterCloseEq (cs : List Char) : Bool :=
  match (specsRun (cs.dropWhile isWs)).dropWhile isWs with
  | ':' :: r2 => eqTail r2
  | _ => false

/-- After a `')'`: `\s*(<[^>]+>)*\s*:` followed by `plainTail`. -/
def afterClosePlain (cs : List Char) : Bool :=
  match (specsRun (cs.dropWhile isWs)).dropWhile isWs with
  | ':' :: r2 => plainTail r2
  | _ => false

/-- `PATTERNS.signatureEnd`: `/\)\s*(<[^>]+>)*\s*:\s*\S+\s*=\s*$/` (unanchored
`test`: some position holds a `')'` whose tail matches). -/
def signatureEndL : List Char → Bool
  | [] => false
  | ')' :: rest => afterCloseEq rest || signatureEndL rest
  | _ :: rest => signatureEndL rest

/-- `PATTERNS.signatureEnd.test(line)`. -/
def signatureEnd (s : String) : Bool := signatureEndL s.data

/-- `PATTERNS.interfaceMethodEnd`: `/\)\s*(<[^>]+>)*\s*:\s*\S+\s*$/` (unanchored). -/
def interfaceMethodEndL : List Char → Bool
  | [] => false
  | ')' :: rest => afterClosePlain rest || interfaceMethodEndL rest
  | _ :: rest => interfaceMethodEndL rest

/-- `PATTERNS.interfaceMethodEnd.test(line)`. -/
def interfaceMethodEnd (s : String) : Bool := interfaceMethodEndL s.data

/-- `PATTERNS.simpleFunction`:
`/^(\s*)(\w+)(<[^>]+>)?\s*\([^)]*\)\s*(<[^>]+>)*\s*:\s*\S+\s*=\s*$/`. -/
def simpleFunction (s : String) : Option Nat :=
  let cs := s.data
  let ind := cs.takeWhile isWs
  let r1 := cs.dropWhile isWs
  if (r1.takeWhile isWord).isEmpty then none
  else
    let r2 := r1.dropWhile isWord
    let r3 := match specTail r2 with
      | some rest => rest
      | none => r2
    match r3.dropWhile isWs with
    | '(' :: r5 =>
      match r5.dropWhile (fun c => c != ')') with
      | ')' :: r6 => if afterCloseEq r6 then some ind.length else none
      | _ => none
    | _ => none

/-- `PATTERNS.attribute`: `/^(\s*)@\w+/`. -/
def attributePat (s : String) : Bool :=
  match s.data.dropWhile isWs with
  | '@' :: r2 =>
    match r2 with
    | c :: _ => isWord c
    | [] => false
  | _ => false

/-- `PATTERNS.comment`: `/^(\s*)#/`. -/
def commentPat (s : String) : Bool :=
  match s.data.dropWhile isWs with
  | '#' :: _ => true
  | _ => false

/-- `PATTERNS.using`: `/^(\s*)using\s*\{/`. -/
def usingPat (s : String) : Bool :=
  let r1 := s.data.dropWhile isWs
  if ("using".data).isPrefixOf r1 then
    match (r1.drop 5).dropWhile isWs with
    | '{' :: _ => true
    | _ => false
  else false

/-- `PATTERNS.emptyOrWhitespace`: `/^\s*$/`. -/
def blankPat (s : String) : Bool := s.data.all isWs

/-- `getIndent(line)`: the length of `line.match(/^(\s*)/)[1]` — the number of
leading whitespace characters (a tab counts as one character). -/
def getIndent (s : String) : Nat := (s.data.takeWhile isWs).length

/-- `isBlankOrComment(line)`. -/
def isBlankOrComment (s : String) : Bool := blankPat s || commentPat s

/-! ## Data model -/

/-- A final chunk record as produced by the engine.  `parentClass` is only set on
chunks added by the nested-member extractor. -/
structure Chunk where
  text : String
  startLine : Nat
  endLine : Nat
  tokenCount : Nat
  type : String
  signature : String
  parentClass : Option String := none
deriving Repr, DecidableEq

/-- The transient chunk builder (`currentChunk` in the scan loop). -/
structure Builder where
  startLine : Nat
  signatureLines : List String
  bodyLines : List String
  baseIndent : Nat
  type : String
  hasBody : Bool
deriving Repr, DecidableEq

/-- The scan-loop state constant: `'IDLE' | 'IN_SIGNATURE' | 'IN_BODY'`. -/
inductive SState
  | idle
  | inSignature
  | inBody
deriving Repr, DecidableEq

/-- The mutable locals of `chunkVerseFile`'s scan loop. -/
structure ScanState where
  state : SState
  cur : Option Builder
  attrs : List (Nat × String)
  chunks : List Chunk
deriving Repr, DecidableEq

def initState : ScanState := ⟨.idle, none, [], []⟩

/-- `startChunk(lineNum, line, indent, type, hasBody)`. -/
def startChunk (lineNum : Nat) (line : String) (indent : Nat) (type : String)
    (hasBody : Bool) : Builder :=
  ⟨lineNum, [line], [], indent, type, hasBody⟩

/-- The signature text assembled by `finalizeChunk`: buffered attribute lines are
prepended to the builder's signature lines, joined and trimmed. -/
def finalSigText (attrs : List (Nat × String)) (b : Builder) : String :=
  jsTrim (joinNl (attrs.map Prod.snd ++ b.signatureLines))

/-- The body text assembled by `finalizeChunk`. -/
def finalBodyText (b : Builder) : String := joinNl b.bodyLines

/-- `fullContent` in `finalizeChunk`: `signature + (body ? '\n' + body : '')`. -/
def finalText (attrs : List (Nat × String)) (b : Builder) : String :=
  let body := finalBodyText b
  finalSigText attrs b ++ (if body = "" then "" else "\n" ++ body)

/-- The reported start line: the first buffered attribute's line when attributes
are present, the builder's start line otherwise. -/
def finalStart (attrs : List (Nat × String)) (b : Builder) : Nat :=
  match attrs.head? with
  | some a => a.1
  | none => b.startLine

/-- The display signature: `signature.split('\n')[0].trim().slice(0, 100)`. -/
def dispSig (attrs : List (Nat × String)) (b : Builder) : String :=
  jsSlice 100 (jsTrim ((splitNl (finalSigText attrs b)).headD ""))

/-- The chunk record pushed by `finalizeChunk`. -/
def mkChunk (est : String → Nat) (attrs : List (Nat × String)) (b : Builder)
    (endLine : Nat) : Chunk :=
  { text := finalText attrs b
    startLine := finalStart attrs b
    endLine := endLine
    tokenCount := est (finalText attrs b)
    type := b.type
    signature := dispSig attrs b }

/-- `finalizeChunk(endLine)`: when a builder is open, push its chunk (if the
trimmed text exceeds the 20-character floor) and clear the builder and the
attribute buffer. -/
def finalizeState (est : String → Nat) (st : ScanState) (endLine : Nat) : ScanState :=
  match st.cur with
  | none => st
  | some b =>
    let chunks' :=
      if 20 < (jsTrim (finalText st.attrs b)).length
      then st.chunks ++ [mkChunk est st.attrs b endLine]
      else st.chunks
    { st with cur := none, attrs := [], chunks := chunks' }

/-- The `IDLE`-state handling of one line (the definition-start checks of the scan
loop).  The guard `!PATTERNS.simpleFunction.test(line)` on the multi-line
function branch is vacuously true here because that branch is only reached in
the `none` case of `simpleFunction`. -/
def idleProcess (est : String → Nat) (st : ScanState) (n : Nat) (line : String) :
    ScanState :=
  if attributePat line then { st with attrs := st.attrs ++ [(n, line)] }
  else
    match classOrStruct line with
    | some (ind, kind) =>
      let b := startChunk n line ind kind true
      if kind = "enum" && line.data.contains '{' && line.data.contains '}' then
        finalizeState est { st with cur := some b, state := .idle } n
      else { st with cur := some b, state := .inBody }
    | none =>
      match moduleDecl line with
      | some ind =>
        { st with cur := some (startChunk n line ind "module" true), state := .inBody }
      | none =>
        match extensionStart line with
        | some ind =>
          if signatureEnd line then
            { st with cur := some { startChunk n line ind "extension" false with hasBody := true },
                      state := .inBody }
          else
            { st with cur := some (startChunk n line ind "extension" false),
                      state := .inSignature }
        | none =>
          match simpleFunction line with
          | some ind =>
            { st with cur := some (startChunk n line ind "function" true), state := .inBody }
          | none =>
            match functionStart line with
            | some ind =>
              { st with cur := some (startChunk n line ind "function" false),
                        state := .inSignature }
            | none =>
              if st.attrs ≠ [] ∧ attributePat line = false ∧ isBlankOrComment line = false
              then { st with attrs := [] }
              else st

/-- One iteration of the scan loop on line number `n` (1-indexed).  The local
`const indent = getIndent(line)` is inlined at its two use sites. -/
def step (est : String → Nat) (st : ScanState) (n : Nat) (line : String) : ScanState :=
  if st.state = .idle ∧ (usingPat line = true ∨ blankPat line = true) then st
  else if st.state = .idle ∧ commentPat line = true ∧ getIndent line = 0 then st
  else
    match st.state, st.cur with
    | .inBody, some b =>
      if isBlankOrComment line = false ∧ getIndent line ≤ b.baseIndent then
        -- finalize at the previous line and reprocess this line under the IDLE rules
        idleProcess est (finalizeState est { st with state := .idle } (n - 1)) n line
      else { st with cur := some { b with bodyLines := b.bodyLines ++ [line] } }
    | .inBody, none => st
    | .inSignature, some b =>
      let b' := { b with signatureLines := b.signatureLines ++ [line] }
      if signatureEnd line then
        { st with cur := some { b' with hasBody := true }, state := .inBody }
      else if interfaceMethodEnd line && b'.type = "interface-method" then
        finalizeState est { st with cur := some b', state := .idle } n
      else { st with cur := some b' }
    | .inSignature, none => st
    | .idle, _ => idleProcess est st n line

/-- Run the scan loop over the numbered lines. -/
def runLines (est : String → Nat) : ScanState → Nat → List String → ScanState
  | st, _, [] => st
  | st, n, l :: ls => runLines est (step est st n l) (n + 1) ls

/-- The scan-loop state after all lines of `content` have been processed. -/
def runSeg (est : String → Nat) (content : String) : ScanState :=
  runLines est initState 1 (splitLines content)

/-- The segmenter pass: run the scan loop, then finalize any remaining chunk at
the last line number. -/
def segmenterChunks (est : String → Nat) (content : String) : List Chunk :=
  let st := runSeg est content
  if st.cur.isSome then (finalizeState est st (splitLines content).length).chunks
  else st.chunks

/-! ## Nested-member extractor (`extractNestedMethods`) -/

/-- `methodPattern` in `extractNestedMethods`: `/^(\s+)(\w+)(<[^>]+>)?\s*\(/` —
like `functionStart` but requiring at least one character of indentation.
The `signatureEndPattern` used alongside it is textually identical to
`PATTERNS.signatureEnd`, so `signatureEnd` is reused. -/
def methodPattern (s : String) : Option Nat :=
  let cs := s.data
  let ind := cs.takeWhile isWs
  if ind.isEmpty then none
  else
    let r1 := cs.dropWhile isWs
    if (r1.takeWhile isWord).isEmpty then none
    else
      let r2 := r1.dropWhile isWord
      let r3 := match specTail r2 with
        | some rest => rest
        | none => r2
      match r3.dropWhile isWs with
      | '(' :: _ => some ind.length
      | _ => none

/-- The member-scan locals of `extractNestedMethods`'s inner loop
(`methodStart`, `methodIndent`, `methodLines`, `inMethodSignature`).
The JavaScript sentinel `methodStart === -1` becomes `none`. -/
structure MState where
  mStart : Option Nat
  mIndent : Nat
  mLines : List String
  inSig : Bool
deriving Repr, DecidableEq

/-- The member chunk pushed by `extractNestedMethods`. -/
def mkMember (est : String → Nat) (c : Chunk) (className : String) (s : Nat)
    (mLines : List String) : Chunk :=
  let methodText := joinNl mLines
  { text := methodText
    startLine := c.startLine + s
    endLine := c.startLine + s + mLines.length - 1
    tokenCount := est methodText
    type := "method"
    signature := className ++ "::" ++ jsSlice 80 (jsTrim (mLines.headD ""))
    parentClass := some className }

/-- Push the member chunk when its trimmed text passes the 20-character floor. -/
def pushMember (est : String → Nat) (c : Chunk) (className : String) (s : Nat)
    (mLines : List String) (acc : List Chunk) : List Chunk :=
  if 20 < (jsTrim (joinNl mLines)).length
  then acc ++ [mkMember est c className s mLines]
  else acc

/-- The member-extraction loop over the chunk's own text lines (starting at
index 1, after the class header line). -/
def memberLoop (est : String → Nat) (c : Chunk) (className : String)
    (parentIndent : Nat) : Nat → List String → MState → List Chunk → List Chunk
  | _, [], ms, acc =>
    -- finalize any remaining method at the end of the class
    match ms.mStart with
    | some s => if ms.mLines ≠ [] then pushMember est c className s ms.mLines acc else acc
    | none => acc
  | i, line :: rest, ms, acc =>
    let indent := getIndent line
    let trimmed := jsTrim line
    if trimmed = "" ∨ trimmed.data.head? = some '#' then
      -- blank and comment lines: recorded inside an open method, skipped otherwise
      match ms.mStart with
      | some _ =>
        memberLoop est c className parentIndent (i + 1) rest
          { ms with mLines := ms.mLines ++ [line] } acc
      | none => memberLoop est c className parentIndent (i + 1) rest ms acc
    else if (methodPattern line).isSome ∧ parentIndent < indent ∧ ms.mStart = none then
      memberLoop est c className parentIndent (i + 1) rest
        ⟨some i, indent, [line], !signatureEnd line⟩ acc
    else if ms.inSig ∧ ms.mStart ≠ none then
      memberLoop est c className parentIndent (i + 1) rest
        { ms with mLines := ms.mLines ++ [line],
                  inSig := if signatureEnd line then false else ms.inSig } acc
    else
      match ms.mStart with
      | some s =>
        if indent ≤ ms.mIndent ∧ trimmed ≠ "" then
          let acc' := pushMember est c className s ms.mLines acc
          -- check whether this line starts a new method
          if (methodPattern line).isSome ∧ parentIndent < indent then
            memberLoop est c className parentIndent (i + 1) rest
              ⟨some i, indent, [line], !signatureEnd line⟩ acc'
          else
            memberLoop est c className parentIndent (i + 1) rest ⟨none, 0, [], ms.inSig⟩ acc'
        else
          memberLoop est c className parentIndent (i + 1) rest
            { ms with mLines := ms.mLines ++ [line] } acc
      | none => memberLoop est c className parentIndent (i + 1) rest ms acc

/-- The member chunks extracted from one chunk: empty unless the chunk is a
class/struct chunk with at least 3 text lines. -/
def membersOf (est : String → Nat) (c : Chunk) : List Chunk :=
  if c.type ≠ "class" ∧ c.type ≠ "struct" then []
  else
    let lines := splitNl c.text
    if lines.length < 3 then []
    else
      let first := lines.headD ""
      let className :=
        match (first.data.dropWhile isWs).takeWhile isWord with
        | [] => "Unknown"
        | w => String.mk w
      memberLoop est c className (getIndent first) 1 (lines.drop 1) ⟨none, 0, [], false⟩ []

/-- `extractNestedMethods(chunks)`: every chunk is kept, and the members
extracted from it are appended right after it. -/
def extractNestedMethods (est : String → Nat) (chunks : List Chunk) : List Chunk :=
  chunks.flatMap (fun c => c :: membersOf est c)

/-! ## Token-budget splitter (`applyTokenLimits`) -/

/-- The backward overlap scan: walk the emitted segment's lines from the end,
accumulating a suffix whose token cost stays within the overlap budget
(`overlapLines` / `overlapCount` in the source).  The first argument is the
segment's lines in reverse order. -/
def overlapCalc (est : String → Nat) (overlapTokens : Nat) :
    List String → List String → Nat → List String × Nat
  | [], ov, ovc => (ov, ovc)
  | l :: rest, ov, ovc =>
    if ovc < overlapTokens then
      if ovc + est l ≤ overlapTokens then
        overlapCalc est overlapTokens rest (l :: ov) (ovc + est l)
      else (ov, ovc)
    else (ov, ovc)

/-- `result.length === 0 ? signatureLine : `(continued) ${signatureLine}`` —
note that `result` is the whole output list accumulated so far, across chunks. -/
def contSig (result : List Chunk) (signatureLine : String) : String :=
  if result.length = 0 then signatureLine else "(continued) " ++ signatureLine

/-- The greedy line-accumulation loop splitting one oversized chunk.  `i` is the
index of the next line, `curLines`/`curTokens` the running segment,
`segStart` the running segment's start line, `result` the output list built
so far (shared across chunks). -/
def splitLoop (est : String → Nat) (target overlap : Nat) (c : Chunk)
    (signatureLine : String) :
    List String → Nat → List String → Nat → Nat → List Chunk → List Chunk
  | [], _, curLines, curTokens, segStart, result =>
    -- add the remaining partial segment (subject to the 20-character floor)
    if curLines ≠ [] then
      let text := joinNl curLines
      if 20 < (jsTrim text).length then
        result ++ [{ text := text, startLine := segStart, endLine := c.endLine,
                     tokenCount := curTokens, type := c.type,
                     signature := contSig result signatureLine }]
      else result
    else result
  | line :: rest, i, curLines, curTokens, segStart, result =>
    if target < curTokens + est line ∧ curLines ≠ [] then
      let text := joinNl curLines
      let result' := result ++
        [{ text := text, startLine := segStart,
           endLine := segStart + curLines.length - 1, tokenCount := curTokens,
           type := c.type, signature := contSig result signatureLine }]
      let ov := overlapCalc est overlap curLines.reverse [] 0
      splitLoop est target overlap c signatureLine rest (i + 1)
        (ov.1 ++ [line]) (ov.2 + est line) (c.startLine + i - ov.1.length) result'
    else
      splitLoop est target overlap c signatureLine rest (i + 1)
        (curLines ++ [line]) (curTokens + est line) segStart result

/-- The body of `applyTokenLimits`' loop over chunks: a chunk at or below
1.5× the target (exactly `2 * tokenCount ≤ 3 * targetTokens` on integers)
passes through; an oversized chunk is re-split by lines. -/
def atlStep (est : String → Nat) (target overlap : Nat) (result : List Chunk)
    (c : Chunk) : List Chunk :=
  if 2 * c.tokenCount ≤ 3 * target then result ++ [c]
  else
    let lines := splitNl c.text
    let signatureLine := if c.signature ≠ "" then c.signature else lines.headD ""
    splitLoop est target overlap c signatureLine lines 0 [] 0 c.startLine result

/-- `applyTokenLimits(chunks, targetTokens, overlapTokens)`. -/
def applyTokenLimits (est : String → Nat) (target overlap : Nat)
    (chunks : List Chunk) : List Chunk :=
  chunks.foldl (atlStep est target overlap) []

/-- `chunkVerseFile(content, filePath, config)`: the full three-pass pipeline.
The unused `filePath` argument is omitted; `targetTokens`/`overlapTokens`
stand for `getChunkingParams(config.embeddingModel)`. -/
def chunkVerseFile (est : String → Nat) (targetTokens overlapTokens : Nat)
    (content : String) : List Chunk :=
  applyTokenLimits est targetTokens overlapTokens
    (extractNestedMethods est (segmenterChunks est content))

/-- Modelled from the spec: the token-estimation collaborator (`estimateTokens`
in the absent `tokenizer.js`) is specified only as "a token-estimation function
(text → integer count)" (§6).  This representative admissible estimator counts
one token per four characters, rounding up. -/
def est4 (s : String) : Nat := (s.length + 3) / 4

/-! ## Predicates used by the verification -/

/-- Modelled from the spec: "`depth(line)` returns the count of leading
whitespace columns, expanding tabs to 4 columns each" (§4.2) — the leading
whitespace of a line measured in columns, a tab contributing `tabWidth`
columns and every other whitespace character one column. -/
def leadingWsColumns (tabWidth : Nat) : List Char → Nat
  | [] => 0
  | c :: cs =>
    if isWs c then (if c = '\t' then tabWidth else 1) + leadingWsColumns tabWidth cs
    else 0

/-- A string with no newline character (each line produced by splitting has
this shape). -/
def nlFree (s : String) : Prop := '\n' ∉ s.data

/-- Line-bound well-formedness of a chunk against a file of `L` lines:
`1 ≤ startLine ≤ endLine ≤ L`. -/
def chunkOK (L : Nat) (c : Chunk) : Prop :=
  1 ≤ c.startLine ∧ c.startLine ≤ c.endLine ∧ c.endLine ≤ L

/-- Span well-formedness: the chunk's text has no more lines than its reported
inclusive line range covers. -/
def chunkSpan (c : Chunk) : Prop :=
  (splitNl c.text).length + c.startLine ≤ c.endLine + 1

/-- The number of lines of the input, as the engine computes it. -/
def lineCountOf (content : String) : Nat := (splitLines content).length

/-- The scan-loop invariant, holding before line number `n` is processed:
the state flag and the builder option agree; a ghost bound `e` dominates all
emitted end lines and separates them from the attribute buffer and the open
builder; counts of buffered lines are consistent with the line numbers. -/
def SegInv (st : ScanState) (n : Nat) : Prop :=
  (st.state = SState.idle ↔ st.cur = none) ∧
  ∃ e, e < n ∧
    (∀ c ∈ st.chunks, chunkOK e c ∧ chunkSpan c) ∧
    List.Pairwise (fun a b => a.endLine < b.startLine) st.chunks ∧
    (∀ p ∈ st.attrs, e < p.1 ∧ p.1 + 1 ≤ n ∧ nlFree p.2) ∧
    (∀ p, st.attrs.head? = some p → st.attrs.length + p.1 ≤ n) ∧
    (∀ b, st.cur = some b →
      e < b.startLine ∧ b.startLine + 1 ≤ n ∧
      b.signatureLines ≠ [] ∧
      (∀ l ∈ b.signatureLines, nlFree l) ∧
      (∀ l ∈ b.bodyLines, nlFree l) ∧
      b.signatureLines.length + b.bodyLines.length + b.startLine ≤ n ∧
      (∀ p ∈ st.attrs, p.1 < b.startLine) ∧
      (∀ q, st.attrs.head? = some q → st.attrs.length + q.1 ≤ b.startLine))

/-! # Theorems -/

/-! ## Basic lemmas about the string helpers -/

theorem splitNlL_length (cs : List Char) :
    (splitNlL cs).length = cs.count '\n' + 1 := by
  induction cs with
  | nil => rfl
  | cons c rest ih =>
    by_cases h : c = '\n'
    · subst h
      simp [splitNlL, ih, List.count_cons]
    · have hne : splitNlL rest ≠ [] := by
        intro hnil
        rw [hnil] at ih
        simp at ih
      rcases hsp : splitNlL rest with _ | ⟨hd, tl⟩
      · exact absurd hsp hne
      · rw [splitNlL, if_neg h, hsp]
        rw [hsp] at ih
        simp only [List.length_cons] at ih ⊢
        rw [List.count_cons]
        simp [h, ih]

theorem splitNlL_ne_nil (cs : List Char) : splitNlL cs ≠ [] := by
  intro h
  have := splitNlL_length cs
  rw [h] at this
  simp at this

theorem splitNlL_nlFree (cs : List Char) : ∀ l ∈ splitNlL cs, '\n' ∉ l := by
  induction cs with
  | nil =>
    intro l h
    simp only [splitNlL, List.mem_singleton] at h
    subst h; simp
  | cons c rest ih =>
    intro l h
    by_cases hc : c = '\n'
    · subst hc
      rw [splitNlL, if_pos rfl] at h
      rcases List.mem_cons.mp h with h | h
      · subst h; simp
      · exact ih l h
    · rw [splitNlL, if_neg hc] at h
      rcases hsp : splitNlL rest with _ | ⟨hd, tl⟩
      · exact absurd hsp (splitNlL_ne_nil rest)
      · rw [hsp] at h
        rcases List.mem_cons.mp h with h | h
        · subst h
          intro hmem
          rcases List.mem_cons.mp hmem with hmem | hmem
          · exact hc hmem.symm
          · exact ih hd (hsp ▸ List.mem_cons_self hd tl) hmem
        · exact ih l (hsp ▸ List.mem_cons_of_mem hd h)

theorem splitNlL_of_nlFree {cs : List Char} (h : '\n' ∉ cs) : splitNlL cs = [cs] := by
  induction cs with
  | nil => rfl
  | cons c rest ih =>
    have hc : c ≠ '\n' := fun hh => h (hh ▸ List.mem_cons_self c rest)
    have hr : '\n' ∉ rest := fun hh => h (List.mem_cons_of_mem c hh)
    rw [splitNlL, if_neg hc, ih hr]

theorem splitNlL_append_cons {x t : List Char} (hx : '\n' ∉ x) :
    splitNlL (x ++ '\n' :: t) = x :: splitNlL t := by
  induction x with
  | nil => simp [splitNlL]
  | cons c x' ih =>
    have hc : c ≠ '\n' := fun hh => hx (hh ▸ List.mem_cons_self c x')
    have hx' : '\n' ∉ x' := fun hh => hx (List.mem_cons_of_mem c hh)
    rw [List.cons_append, splitNlL, if_neg hc, ih hx']

theorem splitNlL_joinNlL {xs : List (List Char)} (hne : xs ≠ [])
    (hfree : ∀ x ∈ xs, '\n' ∉ x) : splitNlL (joinNlL xs) = xs := by
  induction xs with
  | nil => exact absurd rfl hne
  | cons x xs ih =>
    rcases xs with _ | ⟨y, ys⟩
    · rw [joinNlL]
      exact splitNlL_of_nlFree (hfree x (List.mem_cons_self x []))
    · rw [joinNlL]
      rw [splitNlL_append_cons (hfree x (List.mem_cons_self x _))]
      rw [ih (by simp) (fun z hz => hfree z (List.mem_cons_of_mem x hz))]

theorem joinNlL_count {xs : List (List Char)} (hne : xs ≠ [])
    (hfree : ∀ x ∈ xs, '\n' ∉ x) : (joinNlL xs).count '\n' + 1 = xs.length := by
  have := splitNlL_joinNlL hne hfree
  have hlen := splitNlL_length (joinNlL xs)
  rw [this] at hlen
  omega

theorem count_rtrimL_le (cs : List Char) :
    (rtrimL cs).count '\n' ≤ cs.count '\n' := by
  unfold rtrimL
  rw [List.count_reverse]
  calc (cs.reverse.dropWhile isWs).count '\n'
      ≤ cs.reverse.count '\n' := (List.dropWhile_sublist isWs).count_le '\n'
    _ = cs.count '\n' := List.count_reverse '\n' cs

theorem count_trimL_le (cs : List Char) :
    (trimL cs).count '\n' ≤ cs.count '\n' := by
  unfold trimL
  calc (rtrimL (cs.dropWhile isWs)).count '\n'
      ≤ (cs.dropWhile isWs).count '\n' := count_rtrimL_le _
    _ ≤ cs.count '\n' := (List.dropWhile_sublist isWs).count_le '\n'

theorem splitNl_length_eq (s : String) :
    (splitNl s).length = (splitNlL s.data).length := by
  unfold splitNl
  simp

theorem splitNl_jsTrim_le (s : String) :
    (splitNl (jsTrim s)).length ≤ (splitNl s).length := by
  rw [splitNl_length_eq, splitNl_length_eq, splitNlL_length, splitNlL_length]
  have := count_trimL_le s.data
  simp only [jsTrim]
  omega

theorem mem_splitNl_nlFree {s : String} {l : String} (h : l ∈ splitNl s) :
    nlFree l := by
  unfold splitNl at h
  rcases List.mem_map.mp h with ⟨cs, hcs, rfl⟩
  exact splitNlL_nlFree _ _ hcs

theorem splitNl_joinNl {ls : List String} (hne : ls ≠ [])
    (hfree : ∀ l ∈ ls, nlFree l) : splitNl (joinNl ls) = ls := by
  unfold splitNl joinNl
  rw [splitNlL_joinNlL]
  · rw [List.map_map]
    have : (String.mk ∘ String.data) = id := by
      funext x; rfl
    rw [this, List.map_id]
  · simp [hne]
  · intro x hx
    rcases List.mem_map.mp hx with ⟨l, hl, rfl⟩
    exact hfree l hl

theorem splitLinesL_cons_of {c : Char} {rest : List Char}
    (hcr : ∀ rest1, c = '\r' → rest = '\n' :: rest1 → False)
    (hcn : ¬ c = '\n') :
    splitLinesL (c :: rest) =
      match splitLinesL rest with
      | [] => [[c]]
      | l :: ls => (c :: l) :: ls := by
  conv_lhs => rw [splitLinesL.eq_def]
  split
  · next heq => exact absurd heq (by simp)
  · next rest1 heq =>
    obtain ⟨h1, h2⟩ := List.cons_eq_cons.mp heq
    exact absurd (hcr rest1 h1 h2) not_false
  · next c2 rest2 heq =>
    obtain ⟨h1, h2⟩ := List.cons_eq_cons.mp heq
    subst h1; subst h2
    rw [if_neg hcn]

theorem splitLinesL_nlFree (cs : List Char) : ∀ l ∈ splitLinesL cs, '\n' ∉ l := by
  induction cs using splitLinesL.induct with
  | case1 =>
    intro l hl
    simp only [splitLinesL, List.mem_singleton] at hl
    subst hl; simp
  | case2 rest ih =>
    intro l hl
    replace hl : l ∈ [] :: splitLinesL rest := hl
    rcases List.mem_cons.mp hl with h1 | h1
    · subst h1; simp
    · exact ih l h1
  | case3 rest hx ih =>
    intro l hl
    replace hl : l ∈ [] :: splitLinesL rest := hl
    rcases List.mem_cons.mp hl with h1 | h1
    · subst h1; simp
    · exact ih l h1
  | case4 c rest hcr hcn hsp ih =>
    intro l hl
    rw [splitLinesL_cons_of hcr hcn, hsp] at hl
    simp only [List.mem_singleton] at hl
    subst hl
    simp only [List.mem_singleton]
    intro h
    exact hcn h.symm
  | case5 c rest hcr hcn l0 ls hsp ih =>
    intro l hl
    rw [splitLinesL_cons_of hcr hcn, hsp] at hl
    rcases List.mem_cons.mp hl with h1 | h1
    · subst h1
      intro hmem
      rcases List.mem_cons.mp hmem with h2 | h2
      · exact hcn h2.symm
      · exact ih l0 (hsp ▸ List.mem_cons_self l0 ls) h2
    · exact ih l (hsp ▸ List.mem_cons_of_mem l0 h1)

theorem mem_splitLines_nlFree {s : String} {l : String} (h : l ∈ splitLines s) :
    nlFree l := by
  unfold splitLines at h
  rcases List.mem_map.mp h with ⟨cs, hcs, rfl⟩
  exact splitLinesL_nlFree _ _ hcs

/-! ## Indentation depth (C5) -/

theorem takeWhile_ws_columns (cs : List Char) :
    (cs.takeWhile isWs).length = leadingWsColumns 1 cs := by
  induction cs with
  | nil => rfl
  | cons c cs ih =>
    by_cases h : isWs c = true
    · rw [List.takeWhile_cons_of_pos h, leadingWsColumns, if_pos h, ite_self]
      simp only [List.length_cons, ih]
      omega
    · rw [List.takeWhile_cons_of_neg h, leadingWsColumns, if_neg h]
      rfl

/-- C5 (corrected): the engine's `getIndent` — the depth used both by the
Segmenter's block-boundary test and by the Extractor's member-promotion test —
counts every leading whitespace character as exactly one column; a tab is not
expanded to 4 columns. -/
theorem C5_amended (line : String) : getIndent line = leadingWsColumns 1 line.data :=
  takeWhile_ws_columns line.data

/-- C5 counterexample: on the line `"\tA"` the engine's depth is 1, while the
claimed tab-width-4 depth is 4, so the claimed equality fails. -/
theorem C5_counterexample :
    getIndent (String.mk ['\t', 'A']) = 1 ∧
    leadingWsColumns 4 ['\t', 'A'] = 4 ∧
    getIndent (String.mk ['\t', 'A']) ≠ leadingWsColumns 4 ['\t', 'A'] := by
  refine ⟨rfl, rfl, ?_⟩
  decide

/-! ## Builder kinds: the header-only kind is never assigned (C3) -/

/-- The set of kinds a builder can be created with. -/
def allowedType (t : String) : Prop :=
  t = "class" ∨ t = "struct" ∨ t = "interface" ∨ t = "enum" ∨
  t = "module" ∨ t = "extension" ∨ t = "function"

theorem classOrStruct_kind {s : String} {p : Nat × String}
    (h : classOrStruct s = some p) :
    p.2 = "class" ∨ p.2 = "struct" ∨ p.2 = "interface" ∨ p.2 = "enum" := by
  unfold classOrStruct at h
  dsimp only at h
  split at h
  · exact absurd h (by simp)
  · split at h
    · split at h
      · cases h; simp
      · split at h
        · cases h; simp
        · split at h
          · cases h; simp
          · split at h
            · cases h; simp
            · exact absurd h (by simp)
    · exact absurd h (by simp)

theorem finalizeState_cur (est : String → Nat) (st : ScanState) (e : Nat) :
    (finalizeState est st e).cur = none := by
  unfold finalizeState
  split
  · next heq => exact heq
  · rfl

/-- All builders created by the IDLE handler have an allowed kind. -/
theorem idleProcess_types {est : String → Nat} {st : ScanState} {n : Nat}
    {line : String} (h : ∀ b, st.cur = some b → allowedType b.type) :
    ∀ b, (idleProcess est st n line).cur = some b → allowedType b.type := by
  intro b hb
  unfold idleProcess at hb
  split at hb
  · exact h b hb
  · split at hb
    · next ind kind heq =>
      split at hb
      · rw [finalizeState_cur] at hb
        exact absurd hb (by simp)
      · injection hb with hb2
        subst hb2
        have h1 := classOrStruct_kind heq
        dsimp only at h1
        simp only [startChunk, allowedType]
        tauto
    · split at hb
      · injection hb with hb2
        subst hb2
        simp [startChunk, allowedType]
      · split at hb
        · split at hb
          · injection hb with hb2
            subst hb2
            simp [startChunk, allowedType]
          · injection hb with hb2
            subst hb2
            simp [startChunk, allowedType]
        · split at hb
          · injection hb with hb2
            subst hb2
            simp [startChunk, allowedType]
          · split at hb
            · injection hb with hb2
              subst hb2
              simp [startChunk, allowedType]
            · split at hb
              · exact h b hb
              · exact h b hb

theorem step_types {est : String → Nat} {st : ScanState} {n : Nat} {line : String}
    (h : ∀ b, st.cur = some b → allowedType b.type) :
    ∀ b, (step est st n line).cur = some b → allowedType b.type := by
  intro b hb
  unfold step at hb
  by_cases hA : st.state = SState.idle ∧ (usingPat line = true ∨ blankPat line = true)
  · rw [if_pos hA] at hb
    exact h b hb
  · rw [if_neg hA] at hb
    by_cases hB : st.state = SState.idle ∧ commentPat line = true ∧ getIndent line = 0
    · rw [if_pos hB] at hb
      exact h b hb
    · rw [if_neg hB] at hb
      rcases hcur : st.cur with _ | b0 <;>
        rcases hst : st.state with _ | _ | _ <;>
          rw [hst, hcur] at hb <;> dsimp only at hb
      · exact idleProcess_types h b hb
      · exact h b hb
      · exact h b hb
      · exact idleProcess_types h b hb
      · by_cases hsig : signatureEnd line = true
        · rw [if_pos hsig] at hb
          injection hb with hb2
          subst hb2
          exact h b0 hcur
        · rw [if_neg hsig] at hb
          by_cases hifm : (interfaceMethodEnd line && decide
              ({ b0 with signatureLines := b0.signatureLines ++ [line] }.type = "interface-method")) = true
          · rw [if_pos hifm] at hb
            rw [finalizeState_cur] at hb
            exact absurd hb (by simp)
          · rw [if_neg hifm] at hb
            injection hb with hb2
            subst hb2
            exact h b0 hcur
      · by_cases hbd : isBlankOrComment line = false ∧ getIndent line ≤ b0.baseIndent
        · rw [if_pos hbd] at hb
          refine idleProcess_types ?_ b hb
          intro b1 hb1
          rw [finalizeState_cur] at hb1
          exact absurd hb1 (by simp)
        · rw [if_neg hbd] at hb
          injection hb with hb2
          subst hb2
          exact h b0 hcur

theorem runLines_types {est : String → Nat} :
    ∀ (ls : List String) (st : ScanState) (n : Nat),
      (∀ b, st.cur = some b → allowedType b.type) →
      ∀ b, (runLines est st n ls).cur = some b → allowedType b.type := by
  intro ls
  induction ls with
  | nil => intro st n h; exact h
  | cons l ls ih =>
    intro st n h
    exact ih (step est st n l) (n + 1) (step_types h)

theorem runSeg_types (est : String → Nat) (content : String) :
    ∀ b, (runSeg est content).cur = some b → allowedType b.type := by
  unfold runSeg
  exact runLines_types _ _ _ (by intro b hb; exact absurd hb (by simp [initState]))

/-! ## The 20-character size floor (C9) -/

/-- A chunk passing the size floor of `finalizeChunk` and of the extractor. -/
def floorOK (c : Chunk) : Prop := 20 < (jsTrim c.text).length

theorem finalizeState_chunks (est : String → Nat) (st : ScanState) (e : Nat) :
    ∀ c ∈ (finalizeState est st e).chunks, c ∈ st.chunks ∨ floorOK c := by
  intro c hc
  unfold finalizeState at hc
  split at hc
  · exact Or.inl hc
  · next b heq =>
    dsimp only at hc
    split at hc
    · next hfloor =>
      rcases List.mem_append.mp hc with hc | hc
      · exact Or.inl hc
      · simp only [List.mem_singleton] at hc
        subst hc
        exact Or.inr hfloor
    · exact Or.inl hc

theorem idleProcess_chunks (est : String → Nat) (st : ScanState) (n : Nat)
    (line : String) :
    ∀ c ∈ (idleProcess est st n line).chunks, c ∈ st.chunks ∨ floorOK c := by
  unfold idleProcess
  split
  · intro c hc; exact Or.inl hc
  · split
    · split
      · exact finalizeState_chunks _ _ _
      · intro c hc; exact Or.inl hc
    · split
      · intro c hc; exact Or.inl hc
      · split
        · split
          · intro c hc; exact Or.inl hc
          · intro c hc; exact Or.inl hc
        · split
          · intro c hc; exact Or.inl hc
          · split
            · intro c hc; exact Or.inl hc
            · split
              · intro c hc; exact Or.inl hc
              · intro c hc; exact Or.inl hc

theorem step_chunks (est : String → Nat) (st : ScanState) (n : Nat) (line : String) :
    ∀ c ∈ (step est st n line).chunks, c ∈ st.chunks ∨ floorOK c := by
  intro c hc
  unfold step at hc
  by_cases hA : st.state = SState.idle ∧ (usingPat line = true ∨ blankPat line = true)
  · rw [if_pos hA] at hc
    exact Or.inl hc
  · rw [if_neg hA] at hc
    by_cases hB : st.state = SState.idle ∧ commentPat line = true ∧ getIndent line = 0
    · rw [if_pos hB] at hc
      exact Or.inl hc
    · rw [if_neg hB] at hc
      rcases hcur : st.cur with _ | b0 <;>
        rcases hst : st.state with _ | _ | _ <;>
          rw [hst, hcur] at hc <;> dsimp only at hc
      · exact idleProcess_chunks _ _ _ _ c hc
      · exact Or.inl hc
      · exact Or.inl hc
      · exact idleProcess_chunks _ _ _ _ c hc
      · by_cases hsig : signatureEnd line = true
        · rw [if_pos hsig] at hc
          exact Or.inl hc
        · rw [if_neg hsig] at hc
          by_cases hifm : (interfaceMethodEnd line && decide
              ({ b0 with signatureLines := b0.signatureLines ++ [line] }.type = "interface-method")) = true
          · rw [if_pos hifm] at hc
            rcases finalizeState_chunks _ _ _ c hc with h | h
            · exact Or.inl h
            · exact Or.inr h
          · rw [if_neg hifm] at hc
            exact Or.inl hc
      · by_cases hbd : isBlankOrComment line = false ∧ getIndent line ≤ b0.baseIndent
        · rw [if_pos hbd] at hc
          rcases idleProcess_chunks _ _ _ _ c hc with h | h
          · rcases finalizeState_chunks _ _ _ c h with h2 | h2
            · exact Or.inl h2
            · exact Or.inr h2
          · exact Or.inr h
        · rw [if_neg hbd] at hc
          exact Or.inl hc

theorem runLines_chunks (est : String → Nat) :
    ∀ (ls : List String) (st : ScanState) (n : Nat),
      ∀ c ∈ (runLines est st n ls).chunks, c ∈ st.chunks ∨ floorOK c := by
  intro ls
  induction ls with
  | nil => intro st n c hc; exact Or.inl hc
  | cons l ls ih =>
    intro st n c hc
    rcases ih (step est st n l) (n + 1) c hc with h | h
    · exact step_chunks _ _ _ _ c h
    · exact Or.inr h

theorem segmenterChunks_floor (est : String → Nat) (content : String) :
    ∀ c ∈ segmenterChunks est content, floorOK c := by
  have base : ∀ c ∈ (runSeg est content).chunks, floorOK c := by
    intro c hc
    rcases runLines_chunks est (splitLines content) initState 1 c hc with h | h
    · exact absurd h (by simp [initState])
    · exact h
  unfold segmenterChunks
  dsimp only
  split
  · intro c hc
    rcases finalizeState_chunks _ _ _ c hc with h | h
    · exact base c h
    · exact h
  · exact base

theorem pushMember_floor (est : String → Nat) (c : Chunk) (cn : String) (s : Nat)
    (mLines : List String) (acc : List Chunk) :
    ∀ x ∈ pushMember est c cn s mLines acc, x ∈ acc ∨ floorOK x := by
  intro x hx
  unfold pushMember at hx
  split at hx
  · next hfloor =>
    rcases List.mem_append.mp hx with hx | hx
    · exact Or.inl hx
    · simp only [List.mem_singleton] at hx
      subst hx
      exact Or.inr hfloor
  · exact Or.inl hx

theorem memberLoop_floor (est : String → Nat) (c : Chunk) (cn : String) (pi : Nat) :
    ∀ (rest : List String) (i : Nat) (ms : MState) (acc : List Chunk),
      ∀ x ∈ memberLoop est c cn pi i rest ms acc, x ∈ acc ∨ floorOK x := by
  intro rest
  induction rest with
  | nil =>
    intro i ms acc x hx
    unfold memberLoop at hx
    split at hx
    · split at hx
      · exact pushMember_floor _ _ _ _ _ _ x hx
      · exact Or.inl hx
    · exact Or.inl hx
  | cons line rest ih =>
    intro i ms acc
    have push_then (s : Nat) (mLines : List String) :
        ∀ (i2 : Nat) (ms2 : MState),
          ∀ x ∈ memberLoop est c cn pi i2 rest ms2 (pushMember est c cn s mLines acc),
            x ∈ acc ∨ floorOK x := by
      intro i2 ms2 x hx
      rcases ih i2 ms2 _ x hx with h | h
      · rcases pushMember_floor _ _ _ _ _ _ x h with h2 | h2
        · exact Or.inl h2
        · exact Or.inr h2
      · exact Or.inr h
    unfold memberLoop
    dsimp only
    split
    · split
      · exact ih _ _ _
      · exact ih _ _ _
    · split
      · exact ih _ _ _
      · split
        · exact ih _ _ _
        · split
          · split
            · split
              · exact push_then _ _ _ _
              · exact push_then _ _ _ _
            · exact ih _ _ _
          · exact ih _ _ _

theorem membersOf_floor (est : String → Nat) (c : Chunk) :
    ∀ x ∈ membersOf est c, floorOK x := by
  intro x hx
  unfold membersOf at hx
  split at hx
  · exact absurd hx (by simp)
  · dsimp only at hx
    split at hx
    · exact absurd hx (by simp)
    · rcases memberLoop_floor _ _ _ _ _ _ _ _ x hx with h | h
      · exact absurd h (by simp)
      · exact h

/-! ## Claim theorems for C3, C4, C6, C8, C9, C10 -/

/-- C3 counterexample: an interface definition with two header-only methods
(the spec's own test shape, indented as Verse interfaces are) yields exactly
ONE chunk — the whole interface with the two method headers in its body — not
the two empty-body chunks the claim requires. -/
theorem C3_counterexample :
    (chunkVerseFile est4 100 20
      "interface_power_node := interface:\n    GetBasePowerOutput()<reads>:float\n    GetEfficiency()<reads>:float").length
      = 1 := by
  rfl

/-- C3 (corrected): the interface input yields a single chunk of kind
`interface` containing both method headers as body lines, and the
header-only (`interface-method`) immediate-finalization branch is unreachable:
no builder is ever created with that kind, in any run on any input. -/
theorem C3_amended :
    chunkVerseFile est4 100 20
        "interface_power_node := interface:\n    GetBasePowerOutput()<reads>:float\n    GetEfficiency()<reads>:float" =
      [{ text := "interface_power_node := interface:\n    GetBasePowerOutput()<reads>:float\n    GetEfficiency()<reads>:float",
         startLine := 1, endLine := 3, tokenCount := 27, type := "interface",
         signature := "interface_power_node := interface:", parentClass := none }] ∧
    (∀ (est : String → Nat) (content : String) (b : Builder),
      (runSeg est content).cur = some b → b.type ≠ "interface-method") := by
  refine ⟨by rfl, ?_⟩
  intro est content b hb
  have h := runSeg_types est content b hb
  rcases h with h | h | h | h | h | h | h <;> rw [h] <;> decide

/-- Witness for C3's amended theorem at a concrete run: the builder open after
scanning `"Foo("` has kind `function`, which is not the header-only kind. -/
theorem C3_witness :
    (Builder.type ⟨1, ["Foo("], [], 0, "function", false⟩) ≠ "interface-method" :=
  C3_amended.2 est4 "Foo(" ⟨1, ["Foo("], [], 0, "function", false⟩ rfl

/-- C4 counterexample: with a blank line between `@editable` and the
definition, the attribute is NOT dropped: the chunk's text still starts with
the attribute line and its `startLine` is 1 (the attribute's line), not 3
(the definition's line) as the claim requires. -/
theorem C4_counterexample :
    chunkVerseFile est4 100 20
        "@editable\n\nPack4Ints<public>(A: int)<transacts>: int =\n    A + A + A" =
      [{ text := "@editable\nPack4Ints<public>(A: int)<transacts>: int =\n    A + A + A",
         startLine := 1, endLine := 4, tokenCount := 17, type := "function",
         signature := "@editable", parentClass := none }] := by
  rfl

/-- C4 (corrected): buffered attributes bind to the next recognized
definition-start even across blank lines — a blank line seen in the idle
state leaves the whole scan state (including the attribute buffer) unchanged —
and when attached, the chunk starts at the first attribute's line with the
attribute text prepended.  Attributes are discarded only when a non-blank,
non-comment, non-attribute line that is not a definition-start intervenes. -/
theorem C4_amended :
    (∀ (est : String → Nat) (st : ScanState) (n : Nat) (line : String),
      st.state = SState.idle → blankPat line = true → step est st n line = st) ∧
    chunkVerseFile est4 100 20
        "@editable\nPack4Ints<public>(A: int)<transacts>: int =\n    A + A + A" =
      [{ text := "@editable\nPack4Ints<public>(A: int)<transacts>: int =\n    A + A + A",
         startLine := 1, endLine := 3, tokenCount := 17, type := "function",
         signature := "@editable", parentClass := none }] ∧
    chunkVerseFile est4 100 20
        "@editable\nzzz inert line here\nPack4Ints<public>(A: int)<transacts>: int =\n    A + A + A" =
      [{ text := "Pack4Ints<public>(A: int)<transacts>: int =\n    A + A + A",
         startLine := 3, endLine := 4, tokenCount := 15, type := "function",
         signature := "Pack4Ints<public>(A: int)<transacts>: int =", parentClass := none }] := by
  refine ⟨?_, by rfl, by rfl⟩
  intro est st n line h1 h2
  unfold step
  rw [if_pos ⟨h1, Or.inr h2⟩]

/-- Witness for C4's amended theorem: a blank line in the idle start state is
a no-op of the scan step. -/
theorem C4_witness : step est4 initState 7 " " = initState :=
  C4_amended.1 est4 initState 7 " " rfl rfl

/-- C6 (code bug): on an input whose second definition is oversized
(target 10, overlap 0), the splitter marks the FIRST segment of that second
chunk (the segment starting at the chunk's own start line 3) as
`(continued)`, because the `result.length === 0` test consults the global
output list — which already holds the first chunk — instead of the segments
of the chunk being split.  The claim (and the spec) say the first segment of
each split chunk keeps the chunk's original signature. -/
theorem C6_code_divergence :
    (chunkVerseFile est4 10 0
        "Alpha<public>(A: int)<transacts>: int =\n    A + A\nBetaFun<public>(B: int)<transacts>: int =\n    BBBBBBBBBBBBBBBBBBBBBBBBBBBBBBBB\n    CCCCCCCCCCCCCCCCCCCCCCCCCCCCCCCC").map
        (fun c => (c.startLine, c.signature)) =
      [(1, "Alpha<public>(A: int)<transacts>: int ="),
       (3, "(continued) BetaFun<public>(B: int)<transacts>: int ="),
       (4, "(continued) BetaFun<public>(B: int)<transacts>: int ="),
       (5, "(continued) BetaFun<public>(B: int)<transacts>: int =")] := by
  rfl

/-- C8 counterexample: the input `"Foo("` ends with an unterminated header
(the scan ends with a builder still open), yet the engine emits NO chunk at
all — the accumulated trailing code is silently dropped by the 20-character
floor, contradicting the claim's "for every input". -/
theorem C8_counterexample :
    chunkVerseFile est4 100 20 "Foo(" = [] ∧
    (runSeg est4 "Foo(").cur = some ⟨1, ["Foo("], [], 0, "function", false⟩ := by
  exact ⟨rfl, rfl⟩

/-- C8 (corrected): when the scan ends with an open builder, the builder is
finalized with the last line number as the chunk's end and the accumulated
text is emitted — PROVIDED its trimmed text exceeds the 20-character floor. -/
theorem C8_amended (est : String → Nat) (content : String) (b : Builder)
    (h : (runSeg est content).cur = some b)
    (hfloor : 20 < (jsTrim (finalText (runSeg est content).attrs b)).length) :
    segmenterChunks est content =
      (runSeg est content).chunks ++
        [mkChunk est (runSeg est content).attrs b (splitLines content).length] := by
  unfold segmenterChunks
  dsimp only
  rw [h]
  simp only [Option.isSome_some, if_pos]
  unfold finalizeState
  rw [h]
  dsimp only
  rw [if_pos hfloor]

/-- Witness for C8's amended theorem: a two-line unterminated header is
preserved as a chunk ending at the last line. -/
theorem C8_witness :
    segmenterChunks est4 "SomeLongFunctionName<public>(\n    Argument : int" =
      (runSeg est4 "SomeLongFunctionName<public>(\n    Argument : int").chunks ++
        [mkChunk est4
          (runSeg est4 "SomeLongFunctionName<public>(\n    Argument : int").attrs
          ⟨1, ["SomeLongFunctionName<public>(", "    Argument : int"], [], 0, "function", false⟩
          (splitLines "SomeLongFunctionName<public>(\n    Argument : int").length] :=
  C8_amended est4 "SomeLongFunctionName<public>(\n    Argument : int"
    ⟨1, ["SomeLongFunctionName<public>(", "    Argument : int"], [], 0, "function", false⟩
    rfl (by decide)

/-- C9 (confirmed): every chunk emitted by the segmenter pass, and every chunk
added by the extractor pass, has trimmed text strictly longer than 20
characters (candidates at or below the floor are dropped), while the splitter
does NOT re-apply the floor to the intermediate segments it emits — witnessed
by a run (target 1, overlap 0) whose output contains a segment of trimmed
length 1. -/
theorem C9_size_floor :
    (∀ (est : String → Nat) (content : String),
      ∀ c ∈ segmenterChunks est content, 20 < (jsTrim c.text).length) ∧
    (∀ (est : String → Nat) (cs : List Chunk),
      ∀ c ∈ extractNestedMethods est cs, c ∈ cs ∨ 20 < (jsTrim c.text).length) ∧
    (∃ s ∈ chunkVerseFile est4 1 0 "FunckyName<public>(Arg: int):int =\n    A\n    B",
      (jsTrim s.text).length ≤ 20) := by
  refine ⟨segmenterChunks_floor, ?_, by decide⟩
  intro est cs c hc
  unfold extractNestedMethods at hc
  rcases List.mem_flatMap.mp hc with ⟨c0, hc0, hmem⟩
  rcases List.mem_cons.mp hmem with h | h
  · subst h; exact Or.inl hc0
  · exact Or.inr (membersOf_floor est c0 c h)

/-- Witness for C9 at a concrete run: the single enum chunk of the one-line
enum input passes the floor. -/
theorem C9_witness :
    20 < (jsTrim (Chunk.text
      { text := "rotation_direction<public>:= enum{Left, Right}",
        startLine := 1, endLine := 1, tokenCount := 12, type := "enum",
        signature := "rotation_direction<public>:= enum{Left, Right}",
        parentClass := none })).length :=
  C9_size_floor.1 est4 "rotation_direction<public>:= enum{Left, Right}" _ (by decide)

/-- C10 (confirmed): a class or struct chunk whose text splits into fewer than
3 lines passes through the extractor with only itself in the output, and the
extractor adds members only for class/struct chunks with at least 3 text
lines. -/
theorem C10_small_class_no_members :
    (∀ (est : String → Nat) (c : Chunk), (c.type = "class" ∨ c.type = "struct") →
      (splitNl c.text).length < 3 → extractNestedMethods est [c] = [c]) ∧
    (∀ (est : String → Nat) (c : Chunk), membersOf est c ≠ [] →
      (c.type = "class" ∨ c.type = "struct") ∧ 3 ≤ (splitNl c.text).length) := by
  constructor
  · intro est c _ hlen
    have hm : membersOf est c = [] := by
      unfold membersOf
      split
      · rfl
      · dsimp only
        rw [if_pos hlen]
    unfold extractNestedMethods
    simp [hm]
  · intro est c hne
    unfold membersOf at hne
    split at hne
    · exact absurd rfl hne
    · next hcond =>
      dsimp only at hne
      split at hne
      · exact absurd rfl hne
      · next hlen =>
        constructor
        · by_cases h1 : c.type = "class"
          · exact Or.inl h1
          · by_cases h2 : c.type = "struct"
            · exact Or.inr h2
            · exact absurd ⟨h1, h2⟩ hcond
        · omega

/-- Witness for C10 at a concrete two-line class chunk. -/
theorem C10_witness :
    extractNestedMethods est4
        [{ text := "tiny_class := class:\n    X : int = 1", startLine := 1,
           endLine := 2, tokenCount := 9, type := "class",
           signature := "tiny_class := class:", parentClass := none }] =
      [{ text := "tiny_class := class:\n    X : int = 1", startLine := 1,
         endLine := 2, tokenCount := 9, type := "class",
         signature := "tiny_class := class:", parentClass := none }] :=
  C10_small_class_no_members.1 est4 _ (Or.inl rfl) (by decide)

/-! ## The token-budget splitter's segment sizes (C7) -/

theorem overlapCalc_spec (est : String → Nat) (o : Nat) :
    ∀ (rev ov : List String) (ovc : Nat),
      ovc = (ov.map est).sum → ovc ≤ o →
      (overlapCalc est o rev ov ovc).2 = ((overlapCalc est o rev ov ovc).1.map est).sum ∧
      (overlapCalc est o rev ov ovc).2 ≤ o := by
  intro rev
  induction rev with
  | nil => intro ov ovc h1 h2; exact ⟨h1, h2⟩
  | cons l rest ih =>
    intro ov ovc h1 h2
    unfold overlapCalc
    split
    · split
      · next hle =>
        exact ih (l :: ov) (ovc + est l) (by simp [h1]; omega) hle
      · exact ⟨h1, h2⟩
    · exact ⟨h1, h2⟩

theorem overlapCalc_length (est : String → Nat) (o : Nat) :
    ∀ (rev ov : List String) (ovc : Nat),
      (overlapCalc est o rev ov ovc).1.length ≤ rev.length + ov.length := by
  intro rev
  induction rev with
  | nil => intro ov ovc; simp [overlapCalc]
  | cons l rest ih =>
    intro ov ovc
    unfold overlapCalc
    split
    · split
      · calc (overlapCalc est o rest (l :: ov) (ovc + est l)).1.length
            ≤ rest.length + (l :: ov).length := ih _ _
          _ ≤ (l :: rest).length + ov.length := by simp; omega
      · simp
    · simp

/-- The shape invariant of the splitter's running segment: its token sum is
within the target, or it is an overlap seed (within the overlap budget)
followed by exactly one further line. -/
def segShape (est : String → Nat) (target overlap : Nat)
    (curLines : List String) (curTokens : Nat) : Prop :=
  curTokens ≤ target ∨
  ∃ pre l, curLines = pre ++ [l] ∧ (pre.map est).sum ≤ overlap ∧
    curTokens = (pre.map est).sum + est l

/-- The per-segment conclusion of the amended C7. -/
def segSized (est : String → Nat) (target overlap : Nat) (x : Chunk) : Prop :=
  x.tokenCount ≤ target ∨
  ∃ pre l, x.text = joinNl (pre ++ [l]) ∧ (pre.map est).sum ≤ overlap ∧
    x.tokenCount = (pre.map est).sum + est l

theorem splitLoop_shape (est : String → Nat) (target overlap : Nat) (c : Chunk)
    (sig : String) :
    ∀ (lines : List String) (i : Nat) (curLines : List String)
      (curTokens segStart : Nat) (result : List Chunk),
      (curLines = [] → curTokens = 0) →
      segShape est target overlap curLines curTokens →
      ∀ x ∈ splitLoop est target overlap c sig lines i curLines curTokens segStart result,
        x ∈ result ∨ segSized est target overlap x := by
  intro lines
  induction lines with
  | nil =>
    intro i curLines curTokens segStart result hemp hshape x hx
    unfold splitLoop at hx
    dsimp only at hx
    split at hx
    · split at hx
      · rcases List.mem_append.mp hx with h | h
        · exact Or.inl h
        · simp only [List.mem_singleton] at h
          subst h
          rcases hshape with h | ⟨pre, l, h1, h2, h3⟩
          · exact Or.inr (Or.inl h)
          · exact Or.inr (Or.inr ⟨pre, l, by rw [h1], h2, h3⟩)
      · exact Or.inl hx
    · exact Or.inl hx
  | cons line rest ih =>
    intro i curLines curTokens segStart result hemp hshape x hx
    unfold splitLoop at hx
    split at hx
    · next hcond =>
      -- emit the running segment, then reseed with the overlap and this line
      have hov := overlapCalc_spec est overlap curLines.reverse [] 0 rfl (Nat.zero_le _)
      rcases ih (i + 1) _ _ _ _
          (by intro habs; exact absurd habs (by simp))
          (Or.inr ⟨(overlapCalc est overlap curLines.reverse [] 0).1, line, rfl,
            hov.1 ▸ hov.2, by rw [hov.1]⟩) x hx with h | h
      · rcases List.mem_append.mp h with h2 | h2
        · exact Or.inl h2
        · simp only [List.mem_singleton] at h2
          subst h2
          rcases hshape with h3 | ⟨pre, l, h1, h2, h3⟩
          · exact Or.inr (Or.inl h3)
          · exact Or.inr (Or.inr ⟨pre, l, by rw [h1], h2, h3⟩)
      · exact Or.inr h
    · next hcond =>
      -- push the line onto the running segment
      rcases Decidable.not_and_iff_or_not.mp hcond with h | h
      · exact ih (i + 1) _ _ _ _ (by intro habs; exact absurd habs (by simp))
          (Or.inl (by omega)) x hx
      · have hnil : curLines = [] := by
          by_cases hq : curLines = []
          · exact hq
          · exact absurd hq h
        have h0 : curTokens = 0 := hemp hnil
        exact ih (i + 1) _ _ _ _ (by intro habs; exact absurd habs (by simp))
          (Or.inr ⟨[], line, by rw [hnil], by simp, by simp [h0]⟩) x hx

theorem splitLoop_mono (est : String → Nat) (target overlap : Nat) (c : Chunk)
    (sig : String) :
    ∀ (lines : List String) (i : Nat) (curLines : List String)
      (curTokens segStart : Nat) (result : List Chunk),
      ∀ x ∈ result, x ∈ splitLoop est target overlap c sig lines i curLines curTokens segStart result := by
  intro lines
  induction lines with
  | nil =>
    intro i curLines curTokens segStart result x hx
    unfold splitLoop
    dsimp only
    split
    · split
      · exact List.mem_append_left _ hx
      · exact hx
    · exact hx
  | cons line rest ih =>
    intro i curLines curTokens segStart result x hx
    unfold splitLoop
    split
    · exact ih _ _ _ _ _ x (List.mem_append_left _ hx)
    · exact ih _ _ _ _ _ x hx

theorem atlStep_mono (est : String → Nat) (target overlap : Nat)
    (result : List Chunk) (c : Chunk) :
    ∀ x ∈ result, x ∈ atlStep est target overlap result c := by
  intro x hx
  unfold atlStep
  split
  · exact List.mem_append_left _ hx
  · exact splitLoop_mono _ _ _ _ _ _ _ _ _ _ _ x hx

theorem atlFold_mono (est : String → Nat) (target overlap : Nat) :
    ∀ (rem acc : List Chunk), ∀ x ∈ acc,
      x ∈ rem.foldl (atlStep est target overlap) acc := by
  intro rem
  induction rem with
  | nil => intro acc x hx; exact hx
  | cons d rem ih =>
    intro acc x hx
    exact ih _ x (atlStep_mono _ _ _ _ _ x hx)

/-- C7 (corrected): a chunk at or below 1.5× the target passes through
unchanged; and every chunk in the splitter's output is either such a
pass-through chunk, or a segment whose recorded token count is at most the
target, or a segment consisting of an overlap seed (token sum at most the
overlap budget) followed by exactly ONE further line whose estimate pushed
the total past the target.  (The original claim's only exception — a single
oversized line — is the special case of an empty seed.) -/
theorem C7_amended :
    (∀ (est : String → Nat) (target overlap : Nat) (cs : List Chunk) (c : Chunk),
      c ∈ cs → 2 * c.tokenCount ≤ 3 * target →
      c ∈ applyTokenLimits est target overlap cs) ∧
    (∀ (est : String → Nat) (target overlap : Nat) (cs : List Chunk),
      ∀ x ∈ applyTokenLimits est target overlap cs,
        (x ∈ cs ∧ 2 * x.tokenCount ≤ 3 * target) ∨ segSized est target overlap x) := by
  constructor
  · intro est target overlap cs
    unfold applyTokenLimits
    suffices h : ∀ (rem acc : List Chunk) (c : Chunk), c ∈ rem →
        2 * c.tokenCount ≤ 3 * target →
        c ∈ rem.foldl (atlStep est target overlap) acc by
      exact fun c hc hsm => h cs [] c hc hsm
    intro rem
    induction rem with
    | nil => intro acc c hc; exact absurd hc (by simp)
    | cons d rem ih =>
      intro acc c hc hsm
      rcases List.mem_cons.mp hc with h | h
      · subst h
        refine atlFold_mono est target overlap rem _ c ?_
        unfold atlStep
        rw [if_pos hsm]
        exact List.mem_append_right _ (List.mem_singleton.mpr rfl)
      · exact ih _ c h hsm
  · intro est target overlap cs
    unfold applyTokenLimits
    suffices h : ∀ (rem acc : List Chunk), (∀ y ∈ rem, y ∈ cs) →
        (∀ x ∈ acc, (x ∈ cs ∧ 2 * x.tokenCount ≤ 3 * target) ∨ segSized est target overlap x) →
        ∀ x ∈ rem.foldl (atlStep est target overlap) acc,
          (x ∈ cs ∧ 2 * x.tokenCount ≤ 3 * target) ∨ segSized est target overlap x by
      exact fun x hx => h cs [] (fun y hy => hy) (by simp) x hx
    intro rem
    induction rem with
    | nil => intro acc hrem hacc x hx; exact hacc x hx
    | cons d rem ih =>
      intro acc hrem hacc x hx
      refine ih _ (fun y hy => hrem y (List.mem_cons_of_mem d hy)) ?_ x hx
      intro y hy
      unfold atlStep at hy
      split at hy
      · next hsm =>
        rcases List.mem_append.mp hy with h | h
        · exact hacc y h
        · simp only [List.mem_singleton] at h
          subst h
          exact Or.inl ⟨hrem _ (List.mem_cons_self _ _), hsm⟩
      · rcases splitLoop_shape est target overlap d _ _ _ _ _ _ _
            (fun _ => rfl) (Or.inl (Nat.zero_le _)) y hy with h | h
        · exact hacc y h
        · exact Or.inr h

/-- C7 counterexample: in a full pipeline run (target 10, overlap 8, estimator
one token per four characters) on a re-split chunk (26 tokens, above 1.5×10),
the output contains a segment of 17 tokens spanning 2 lines, each of whose
lines alone estimates at most 10 tokens — an emitted segment above the target
that is not a single oversized line. -/
theorem C7_counterexample :
    ∃ s ∈ chunkVerseFile est4 10 8
        "Funcky<public>(Arg: int):int =\n    BBBBBBBBBBBBBBBBBBBBBBBBBBBBBBBB\n    CCCCCCCCCCCCCCCCCCCCCCCCCCCCCCCC",
      10 < s.tokenCount ∧ (splitNl s.text).length ≠ 1 ∧
      ∀ l ∈ splitNl s.text, est4 l ≤ 10 := by
  decide

/-- Witness for C7's amended theorem: a small chunk passes through the
splitter unchanged. -/
theorem C7_witness :
    ({ text := "small", startLine := 1, endLine := 1, tokenCount := 2,
       type := "function", signature := "small", parentClass := none } : Chunk) ∈
      applyTokenLimits est4 10 8
        [{ text := "small", startLine := 1, endLine := 1, tokenCount := 2,
           type := "function", signature := "small", parentClass := none }] :=
  C7_amended.1 est4 10 8 _ _ (by simp) (by decide)

/-! ## The scan-loop invariant (C1, C2) -/

theorem chunkOK_mono {e e' : Nat} (hle : e ≤ e') {c : Chunk} (h : chunkOK e c) :
    chunkOK e' c :=
  ⟨h.1, h.2.1, le_trans h.2.2 hle⟩

theorem splitNl_count (s : String) :
    (splitNl s).length = s.data.count '\n' + 1 := by
  rw [splitNl_length_eq, splitNlL_length]

theorem finalText_lines_le (attrs : List (Nat × String)) (b : Builder)
    (hsig : b.signatureLines ≠ [])
    (hA : ∀ p ∈ attrs, nlFree p.2)
    (hS : ∀ l ∈ b.signatureLines, nlFree l)
    (hB : ∀ l ∈ b.bodyLines, nlFree l) :
    (splitNl (finalText attrs b)).length ≤
      attrs.length + b.signatureLines.length + b.bodyLines.length := by
  have hsigfree : ∀ x ∈ (attrs.map Prod.snd ++ b.signatureLines).map String.data,
      '\n' ∉ x := by
    intro x hx
    rcases List.mem_map.mp hx with ⟨l, hl, rfl⟩
    rcases List.mem_append.mp hl with h | h
    · rcases List.mem_map.mp h with ⟨p, hp, rfl⟩
      exact hA p hp
    · exact hS l h
  have hcount_sig :
      (joinNlL ((attrs.map Prod.snd ++ b.signatureLines).map String.data)).count '\n' + 1
        = attrs.length + b.signatureLines.length := by
    have h1 := @joinNlL_count
      ((attrs.map Prod.snd ++ b.signatureLines).map String.data)
      (by simp [hsig]) hsigfree
    simpa using h1
  have hsigT : (finalSigText attrs b).data.count '\n' + 1 ≤
      attrs.length + b.signatureLines.length := by
    have heq : (finalSigText attrs b).data
        = trimL (joinNlL ((attrs.map Prod.snd ++ b.signatureLines).map String.data)) := rfl
    rw [heq]
    have hle := count_trimL_le (joinNlL ((attrs.map Prod.snd ++ b.signatureLines).map String.data))
    omega
  rw [splitNl_count]
  by_cases hbody : finalBodyText b = ""
  · have : finalText attrs b = finalSigText attrs b := by
      unfold finalText
      dsimp only
      rw [if_pos hbody]
      exact congrArg String.mk (List.append_nil _)
    rw [this]
    have hBnn : (0 : Nat) ≤ b.bodyLines.length := Nat.zero_le _
    omega
  · have hbne : b.bodyLines ≠ [] := by
      intro hnil
      exact hbody (by unfold finalBodyText; rw [hnil]; rfl)
    have hbodyfree : ∀ x ∈ b.bodyLines.map String.data, '\n' ∉ x := by
      intro x hx
      rcases List.mem_map.mp hx with ⟨l, hl, rfl⟩
      exact hB l hl
    have hcount_body :
        (finalBodyText b).data.count '\n' + 1 = b.bodyLines.length := by
      have h1 := @joinNlL_count (b.bodyLines.map String.data)
        (by simp [hbne]) hbodyfree
      simpa using h1
    have hdata : (finalText attrs b).data =
        (finalSigText attrs b).data ++ '\n' :: (finalBodyText b).data := by
      unfold finalText
      dsimp only
      rw [if_neg hbody]
      rfl
    rw [hdata, List.count_append, List.count_cons]
    simp only [beq_self_eq_true, if_true]
    omega

theorem finalStart_le {attrs : List (Nat × String)} {b : Builder}
    (h : ∀ p ∈ attrs, p.1 < b.startLine) : finalStart attrs b ≤ b.startLine := by
  unfold finalStart
  rcases hh : attrs.head? with _ | p
  · exact le_refl _
  · exact le_of_lt (h p (List.mem_of_mem_head? hh))

theorem finalStart_gt {attrs : List (Nat × String)} {b : Builder} {e : Nat}
    (hb : e < b.startLine) (h : ∀ p ∈ attrs, e < p.1) : e < finalStart attrs b := by
  unfold finalStart
  rcases hh : attrs.head? with _ | p
  · exact hb
  · exact h p (List.mem_of_mem_head? hh)

theorem finalCount_le {attrs : List (Nat × String)} {b : Builder} {m : Nat}
    (hcnt : b.signatureLines.length + b.bodyLines.length + b.startLine ≤ m)
    (hacnt : ∀ q, attrs.head? = some q → attrs.length + q.1 ≤ b.startLine) :
    attrs.length + b.signatureLines.length + b.bodyLines.length +
      finalStart attrs b ≤ m := by
  unfold finalStart
  rcases hh : attrs.head? with _ | p
  · have : attrs = [] := List.head?_eq_none_iff.mp hh
    subst this
    simpa using hcnt
  · have h2 := hacnt p hh
    show attrs.length + b.signatureLines.length + b.bodyLines.length + p.1 ≤ m
    omega

theorem pairwise_snoc {chunks : List Chunk} {x : Chunk} {e : Nat}
    (hc : ∀ c ∈ chunks, c.endLine ≤ e)
    (hp : chunks.Pairwise (fun a b => a.endLine < b.startLine))
    (hx : e < x.startLine) :
    (chunks ++ [x]).Pairwise (fun a b => a.endLine < b.startLine) := by
  rw [List.pairwise_append]
  refine ⟨hp, List.pairwise_singleton _ _, ?_⟩
  intro a ha b hb
  simp only [List.mem_singleton] at hb
  subst hb
  exact lt_of_le_of_lt (hc a ha) hx

/-- Finalizing an open builder at `endL`: the emitted chunk (when it passes
the floor) is in bounds, spans no more lines than its range, and lies
strictly after every previously emitted chunk. -/
theorem finalizeState_chunksOK (est : String → Nat) (st1 : ScanState) (b : Builder)
    (endL e : Nat)
    (hcur : st1.cur = some b)
    (hch : ∀ c ∈ st1.chunks, chunkOK e c ∧ chunkSpan c)
    (hpw : st1.chunks.Pairwise (fun a b => a.endLine < b.startLine))
    (hA : ∀ p ∈ st1.attrs, nlFree p.2)
    (hae : ∀ p ∈ st1.attrs, e < p.1)
    (hab : ∀ p ∈ st1.attrs, p.1 < b.startLine)
    (hacnt : ∀ q, st1.attrs.head? = some q → st1.attrs.length + q.1 ≤ b.startLine)
    (hsig : b.signatureLines ≠ [])
    (hS : ∀ l ∈ b.signatureLines, nlFree l)
    (hBn : ∀ l ∈ b.bodyLines, nlFree l)
    (hbe : e < b.startLine)
    (hble : b.startLine ≤ endL)
    (hcnt : b.signatureLines.length + b.bodyLines.length + b.startLine ≤ endL + 1)
    (he : e ≤ endL) :
    (∀ c ∈ (finalizeState est st1 endL).chunks, chunkOK endL c ∧ chunkSpan c) ∧
    (finalizeState est st1 endL).chunks.Pairwise (fun a b => a.endLine < b.startLine) := by
  have hstart_gt : e < finalStart st1.attrs b := finalStart_gt hbe hae
  have hstart_le : finalStart st1.attrs b ≤ b.startLine := finalStart_le hab
  unfold finalizeState
  rw [hcur]
  dsimp only
  constructor
  · split
    · next hfloor =>
      intro c hc
      rcases List.mem_append.mp hc with h | h
      · obtain ⟨h1, h2⟩ := hch c h
        exact ⟨chunkOK_mono he h1, h2⟩
      · simp only [List.mem_singleton] at h
        subst h
        constructor
        · refine ⟨?_, ?_, le_refl _⟩
          · show 1 ≤ finalStart st1.attrs b
            omega
          · show finalStart st1.attrs b ≤ endL
            omega
        · have hlines := finalText_lines_le st1.attrs b hsig hA hS hBn
          have hc2 := finalCount_le hcnt hacnt
          show (splitNl (finalText st1.attrs b)).length + finalStart st1.attrs b ≤ endL + 1
          omega
    · intro c hc
      obtain ⟨h1, h2⟩ := hch c hc
      exact ⟨chunkOK_mono he h1, h2⟩
  · split
    · next hfloor =>
      refine @pairwise_snoc _ _ e ?_ hpw ?_
      · intro c hc
        exact (hch c hc).1.2.2
      · show e < finalStart st1.attrs b
        exact hstart_gt
    · exact hpw

/-- Finalizing an open builder in the idle state preserves the full invariant. -/
theorem finalizeState_inv (est : String → Nat) (st1 : ScanState) (b : Builder)
    (endL n' e : Nat)
    (hstate : st1.state = SState.idle)
    (hcur : st1.cur = some b)
    (hch : ∀ c ∈ st1.chunks, chunkOK e c ∧ chunkSpan c)
    (hpw : st1.chunks.Pairwise (fun a b => a.endLine < b.startLine))
    (hA : ∀ p ∈ st1.attrs, nlFree p.2)
    (hae : ∀ p ∈ st1.attrs, e < p.1)
    (hab : ∀ p ∈ st1.attrs, p.1 < b.startLine)
    (hacnt : ∀ q, st1.attrs.head? = some q → st1.attrs.length + q.1 ≤ b.startLine)
    (hsig : b.signatureLines ≠ [])
    (hS : ∀ l ∈ b.signatureLines, nlFree l)
    (hBn : ∀ l ∈ b.bodyLines, nlFree l)
    (hbe : e < b.startLine)
    (hble : b.startLine ≤ endL)
    (hcnt : b.signatureLines.length + b.bodyLines.length + b.startLine ≤ endL + 1)
    (he : e ≤ endL)
    (hn : endL < n') :
    SegInv (finalizeState est st1 endL) n' := by
  have hcore := finalizeState_chunksOK est st1 b endL e hcur hch hpw hA hae hab
    hacnt hsig hS hBn hbe hble hcnt he
  refine ⟨?_, endL, hn, hcore.1, hcore.2, ?_, ?_, ?_⟩
  · rw [finalizeState_cur]
    unfold finalizeState
    rw [hcur]
    simp [hstate]
  · unfold finalizeState
    rw [hcur]
    intro p hp
    simp at hp
  · unfold finalizeState
    rw [hcur]
    intro q hq
    simp at hq
  · intro b2 hb2
    rw [finalizeState_cur] at hb2
    exact absurd hb2 (by simp)

/-- Opening a fresh builder at line `n` (any definition-start branch of the
IDLE handler) preserves the invariant. -/
theorem openBuilder_inv {st : ScanState} {n : Nat} {line : String}
    {e ind : Nat} {ty : String} {sst : SState} {hasB : Bool}
    (hsst : sst ≠ SState.idle)
    (he : e < n)
    (hch : ∀ c ∈ st.chunks, chunkOK e c ∧ chunkSpan c)
    (hpw : st.chunks.Pairwise (fun a b => a.endLine < b.startLine))
    (hat : ∀ p ∈ st.attrs, e < p.1 ∧ p.1 + 1 ≤ n ∧ nlFree p.2)
    (hacnt : ∀ q, st.attrs.head? = some q → st.attrs.length + q.1 ≤ n)
    (hl : nlFree line) :
    SegInv { st with cur := some (startChunk n line ind ty hasB), state := sst }
      (n + 1) := by
  unfold SegInv
  dsimp only
  refine ⟨iff_of_false (by simpa using hsst) (by simp), e, by omega, hch, hpw, ?_, ?_, ?_⟩
  · intro p hp
    obtain ⟨h1, h2, h3⟩ := hat p hp
    exact ⟨h1, by omega, h3⟩
  · intro q hq
    have := hacnt q hq
    omega
  · intro b hb
    simp only [Option.some_inj] at hb
    subst hb
    simp only [startChunk]
    refine ⟨he, by omega, by simp, ?_, by simp, by simp only [List.length_singleton, List.length_nil]; omega, ?_, ?_⟩
    · intro l hl2
      simp only [List.mem_singleton] at hl2
      subst hl2
      exact hl
    · intro p hp
      have := (hat p hp).2.1
      omega
    · intro q hq
      exact hacnt q hq

theorem SegInv_mono {st : ScanState} {n : Nat} (h : SegInv st n) : SegInv st (n + 1) := by
  obtain ⟨hiff, e, he, hch, hpw, hat, hacnt, hbld⟩ := h
  refine ⟨hiff, e, by omega, hch, hpw, ?_, ?_, ?_⟩
  · intro p hp
    obtain ⟨h1, h2, h3⟩ := hat p hp
    exact ⟨h1, by omega, h3⟩
  · intro p hp
    have := hacnt p hp
    omega
  · intro b hb
    obtain ⟨h1, h2, h3, h4, h5, h6, h7, h8⟩ := hbld b hb
    exact ⟨h1, by omega, h3, h4, h5, by omega, h7, h8⟩

theorem head?_append_single {α : Type _} (l : List α) (x : α) :
    (l ++ [x]).head? = some (l.headD x) := by
  cases l <;> simp

/-- The IDLE-state handler preserves the invariant. -/
theorem idleProcess_inv {est : String → Nat} {st : ScanState} {n : Nat}
    {line : String} (h : SegInv st n) (_hstate : st.state = SState.idle)
    (hcur : st.cur = none) (hl : nlFree line) :
    SegInv (idleProcess est st n line) (n + 1) := by
  obtain ⟨hiff, e, he, hch, hpw, hat, hacnt, hbld⟩ := h
  have hattr_free : ∀ p ∈ st.attrs, nlFree p.2 := fun p hp => (hat p hp).2.2
  have hattr_gt : ∀ p ∈ st.attrs, e < p.1 := fun p hp => (hat p hp).1
  have hattr_lt : ∀ p ∈ st.attrs, p.1 < n := fun p hp => by
    have := (hat p hp).2.1
    omega
  unfold idleProcess
  by_cases h1 : attributePat line = true
  · rw [if_pos h1]
    unfold SegInv
    dsimp only
    refine ⟨hiff, e, by omega, hch, hpw, ?_, ?_, ?_⟩
    · intro p hp
      rcases List.mem_append.mp hp with hp | hp
      · obtain ⟨a1, a2, a3⟩ := hat p hp
        exact ⟨a1, by omega, a3⟩
      · simp only [List.mem_singleton] at hp
        subst hp
        exact ⟨he, by omega, hl⟩
    · intro q hq
      rw [head?_append_single] at hq
      simp only [Option.some_inj] at hq
      subst hq
      rcases hh : st.attrs with _ | ⟨p, rest⟩
      · simp only [List.nil_append, List.length_singleton, List.headD_nil]
        omega
      · have h2 := hacnt p (by rw [hh]; rfl)
        rw [hh] at h2
        simp only [List.headD_cons, List.length_append, List.length_cons,
          List.length_singleton, List.length_nil] at h2 ⊢
        omega
    · intro b hb
      rw [hcur] at hb
      exact absurd hb (by simp)
  · rw [if_neg h1]
    rcases hcs : classOrStruct line with _ | p
    · rcases hmd : moduleDecl line with _ | ind
      · rcases hex : extensionStart line with _ | ind
        · rcases hsf : simpleFunction line with _ | ind
          · rcases hfs : functionStart line with _ | ind
            · -- no definition-start: keep or discard attributes
              dsimp only
              split
              · unfold SegInv
                dsimp only
                refine ⟨hiff, e, by omega, hch, hpw, by simp, by simp, ?_⟩
                intro b hb
                rw [hcur] at hb
                exact absurd hb (by simp)
              · exact SegInv_mono ⟨hiff, e, he, hch, hpw, hat, hacnt, hbld⟩
            · exact openBuilder_inv (by decide) he hch hpw hat hacnt hl
          · exact openBuilder_inv (by decide) he hch hpw hat hacnt hl
        · dsimp only
          split
          · exact openBuilder_inv (by decide) he hch hpw hat hacnt hl
          · exact openBuilder_inv (by decide) he hch hpw hat hacnt hl
      · exact openBuilder_inv (by decide) he hch hpw hat hacnt hl
    · rcases p with ⟨ind, kind⟩
      dsimp only
      split
      · exact finalizeState_inv est _ (startChunk n line ind kind true) n (n + 1) e
          rfl rfl hch hpw hattr_free hattr_gt hattr_lt hacnt
          (by simp [startChunk]) (by
            intro l hl2
            simp only [startChunk, List.mem_singleton] at hl2
            subst hl2
            exact hl)
          (by simp [startChunk]) he (le_refl n)
          (by simp only [startChunk, List.length_singleton, List.length_nil]; omega)
          (le_of_lt he) (Nat.lt_succ_self n)
      · exact openBuilder_inv (by decide) he hch hpw hat hacnt hl

/-- One scan step preserves the invariant. -/
theorem step_inv {est : String → Nat} {st : ScanState} {n : Nat} {line : String}
    (hl : nlFree line) (h : SegInv st n) : SegInv (step est st n line) (n + 1) := by
  have hiff := h.1
  unfold step
  by_cases hA : st.state = SState.idle ∧ (usingPat line = true ∨ blankPat line = true)
  · rw [if_pos hA]
    exact SegInv_mono h
  · rw [if_neg hA]
    by_cases hB : st.state = SState.idle ∧ commentPat line = true ∧ getIndent line = 0
    · rw [if_pos hB]
      exact SegInv_mono h
    · rw [if_neg hB]
      rcases hcur : st.cur with _ | b0 <;>
        rcases hst : st.state with _ | _ | _ <;>
          dsimp only
      · exact idleProcess_inv h hst hcur hl
      · exact SegInv_mono h
      · exact SegInv_mono h
      · exact idleProcess_inv h hst (hiff.mp hst) hl
      · -- IN_SIGNATURE with an open builder
        obtain ⟨hiff2, e, he, hch, hpw, hat, hacnt, hbld⟩ := h
        obtain ⟨hbe, hbn, hbsig, hbnlS, hbnlB, hbcnt, hbattr, hbacnt⟩ := hbld b0 hcur
        by_cases hsig : signatureEnd line = true
        · rw [if_pos hsig]
          unfold SegInv
          dsimp only
          refine ⟨iff_of_false (by simp) (by simp), e, by omega, hch, hpw, ?_, ?_, ?_⟩
          · intro p hp
            obtain ⟨a1, a2, a3⟩ := hat p hp
            exact ⟨a1, by omega, a3⟩
          · intro q hq
            have := hacnt q hq
            omega
          · intro b hb
            simp only [Option.some_inj] at hb
            subst hb
            dsimp only
            refine ⟨hbe, by omega, by simp [hbsig], ?_, hbnlB, ?_, hbattr, hbacnt⟩
            · intro l hl2
              rcases List.mem_append.mp hl2 with h2 | h2
              · exact hbnlS l h2
              · simp only [List.mem_singleton] at h2
                subst h2
                exact hl
            · simp only [List.length_append, List.length_singleton]
              omega
        · rw [if_neg hsig]
          by_cases hifm : (interfaceMethodEnd line && decide
              ({ b0 with signatureLines := b0.signatureLines ++ [line] }.type = "interface-method")) = true
          · rw [if_pos hifm]
            refine finalizeState_inv est _
              { b0 with signatureLines := b0.signatureLines ++ [line] } n (n + 1) e
              rfl rfl hch hpw (fun p hp => (hat p hp).2.2) (fun p hp => (hat p hp).1)
              hbattr hbacnt (by simp [hbsig]) ?_ hbnlB hbe
              (by show b0.startLine ≤ n; omega) ?_ (by omega)
              (Nat.lt_succ_self n)
            · intro l hl2
              rcases List.mem_append.mp hl2 with h2 | h2
              · exact hbnlS l h2
              · simp only [List.mem_singleton] at h2
                subst h2
                exact hl
            · show (b0.signatureLines ++ [line]).length + b0.bodyLines.length + b0.startLine ≤ n + 1
              simp only [List.length_append, List.length_singleton]
              omega
          · rw [if_neg hifm]
            unfold SegInv
            dsimp only
            refine ⟨iff_of_false (by simp) (by simp), e, by omega, hch, hpw, ?_, ?_, ?_⟩
            · intro p hp
              obtain ⟨a1, a2, a3⟩ := hat p hp
              exact ⟨a1, by omega, a3⟩
            · intro q hq
              have := hacnt q hq
              omega
            · intro b hb
              simp only [Option.some_inj] at hb
              subst hb
              dsimp only
              refine ⟨hbe, by omega, by simp [hbsig], ?_, hbnlB, ?_, hbattr, hbacnt⟩
              · intro l hl2
                rcases List.mem_append.mp hl2 with h2 | h2
                · exact hbnlS l h2
                · simp only [List.mem_singleton] at h2
                  subst h2
                  exact hl
              · simp only [List.length_append, List.length_singleton]
                omega
      · -- IN_BODY with an open builder
        obtain ⟨hiff2, e, he, hch, hpw, hat, hacnt, hbld⟩ := h
        obtain ⟨hbe, hbn, hbsig, hbnlS, hbnlB, hbcnt, hbattr, hbacnt⟩ := hbld b0 hcur
        by_cases hbd : isBlankOrComment line = false ∧ getIndent line ≤ b0.baseIndent
        · rw [if_pos hbd]
          have hfin : SegInv (finalizeState est
              { st with state := SState.idle, cur := some b0 } (n - 1)) n := by
            refine finalizeState_inv est _ b0 (n - 1) n e rfl rfl hch hpw
              (fun p hp => (hat p hp).2.2) (fun p hp => (hat p hp).1)
              hbattr hbacnt hbsig hbnlS hbnlB hbe (by omega) (by omega) (by omega)
              (by omega)
          exact idleProcess_inv hfin rfl (finalizeState_cur _ _ _) hl
        · rw [if_neg hbd]
          unfold SegInv
          dsimp only
          refine ⟨iff_of_false (by simp) (by simp), e, by omega, hch, hpw, ?_, ?_, ?_⟩
          · intro p hp
            obtain ⟨a1, a2, a3⟩ := hat p hp
            exact ⟨a1, by omega, a3⟩
          · intro q hq
            have := hacnt q hq
            omega
          · intro b hb
            simp only [Option.some_inj] at hb
            subst hb
            dsimp only
            refine ⟨hbe, by omega, hbsig, hbnlS, ?_, ?_, hbattr, hbacnt⟩
            · intro l hl2
              rcases List.mem_append.mp hl2 with h2 | h2
              · exact hbnlB l h2
              · simp only [List.mem_singleton] at h2
                subst h2
                exact hl
            · simp only [List.length_append, List.length_singleton]
              omega

theorem runLines_inv {est : String → Nat} :
    ∀ (ls : List String) (st : ScanState) (n : Nat),
      (∀ l ∈ ls, nlFree l) → SegInv st n →
      SegInv (runLines est st n ls) (n + ls.length) := by
  intro ls
  induction ls with
  | nil => intro st n _ h; simpa using h
  | cons l ls ih =>
    intro st n hfree h
    have h1 := @step_inv est _ _ _ (hfree l (List.mem_cons_self l ls)) h
    have h2 := ih (step est st n l) (n + 1)
      (fun x hx => hfree x (List.mem_cons_of_mem l hx)) h1
    simpa [Nat.add_comm, Nat.add_assoc, Nat.add_left_comm] using h2

theorem initState_inv : SegInv initState 1 := by
  refine ⟨by simp [initState], 0, by omega, by simp [initState], by simp [initState],
    by simp [initState], by simp [initState], by simp [initState]⟩

theorem runSeg_inv (est : String → Nat) (content : String) :
    SegInv (runSeg est content) (1 + (splitLines content).length) := by
  unfold runSeg
  exact runLines_inv (splitLines content) initState 1
    (fun l hl => mem_splitLines_nlFree hl) initState_inv

/-- The segmenter's output is line-bounded, span-consistent, and its chunks
are strictly ordered with disjoint ranges. -/
theorem segmenter_invariants (est : String → Nat) (content : String) :
    (∀ c ∈ segmenterChunks est content,
      (chunkOK (splitLines content).length c ∧ chunkSpan c)) ∧
    (segmenterChunks est content).Pairwise (fun a b => a.endLine < b.startLine) := by
  have h := runSeg_inv est content
  set L := (splitLines content).length with hL
  have hL1 : 1 + L = L + 1 := Nat.add_comm 1 L
  rw [hL1] at h
  unfold segmenterChunks
  dsimp only
  split
  · next hcur =>
    rcases Option.isSome_iff_exists.mp hcur with ⟨b, hb⟩
    obtain ⟨hiff, e, he, hch, hpw, hat, hacnt, hbld⟩ := h
    obtain ⟨hbe, hbn, hbsig, hbnlS, hbnlB, hbcnt, hbattr, hbacnt⟩ := hbld b hb
    have hres := finalizeState_chunksOK est (runSeg est content) b L e
      hb hch hpw (fun p hp => (hat p hp).2.2) (fun p hp => (hat p hp).1)
      hbattr hbacnt hbsig hbnlS hbnlB hbe (by omega) (by omega) (by omega)
    exact ⟨hres.1, hres.2⟩
  · obtain ⟨hiff, e, he, hch, hpw, _⟩ := h
    constructor
    · intro c hc
      obtain ⟨h1, h2⟩ := hch c hc
      exact ⟨chunkOK_mono (by omega) h1, h2⟩
    · exact hpw

/-- C2 (confirmed): any two distinct chunks emitted by the segmenter pass have
disjoint inclusive line ranges — in fact each chunk ends strictly before the
next one starts. -/
theorem C2_segmenter_disjoint (est : String → Nat) (content : String) :
    (segmenterChunks est content).Pairwise
      (fun a b => a.endLine < b.startLine ∧
        ∀ m : Nat, a.startLine ≤ m → m ≤ a.endLine →
          ¬(b.startLine ≤ m ∧ m ≤ b.endLine)) := by
  have h := (segmenter_invariants est content).2
  refine h.imp ?_
  intro a b hab
  refine ⟨hab, ?_⟩
  intro m _ hm2 ⟨hm3, _⟩
  omega

/-! ## Extractor pass bounds (towards C1) -/

theorem pushMember_cases {est : String → Nat} {c : Chunk} {cn : String} {s : Nat}
    {mLines : List String} {acc : List Chunk} {x : Chunk}
    (hx : x ∈ pushMember est c cn s mLines acc) :
    x ∈ acc ∨ x = mkMember est c cn s mLines := by
  unfold pushMember at hx
  split at hx
  · rcases List.mem_append.mp hx with h | h
    · exact Or.inl h
    · simp only [List.mem_singleton] at h
      exact Or.inr h
  · exact Or.inl hx

theorem mkMember_ok {est : String → Nat} {c : Chunk} {cn : String} {s : Nat}
    {mLines : List String} {L : Nat}
    (hcOK : chunkOK L c) (hcSpan : chunkSpan c)
    (hs1 : 1 ≤ s) (hne : mLines ≠ [])
    (hfree : ∀ l ∈ mLines, nlFree l)
    (hend : s + mLines.length ≤ (splitNl c.text).length) :
    chunkOK L (mkMember est c cn s mLines) ∧ chunkSpan (mkMember est c cn s mLines) := by
  obtain ⟨hc1, hc2, hc3⟩ := hcOK
  have hlen1 : 1 ≤ mLines.length := List.length_pos.mpr hne
  have hspan := hcSpan
  unfold chunkSpan at hspan
  have hsplit : (splitNl (joinNl mLines)).length = mLines.length := by
    rw [splitNl_joinNl hne hfree]
  constructor
  · refine ⟨by show 1 ≤ c.startLine + s; omega, ?_, ?_⟩
    · show c.startLine + s ≤ c.startLine + s + mLines.length - 1
      omega
    · show c.startLine + s + mLines.length - 1 ≤ L
      omega
  · show (splitNl (joinNl mLines)).length + (c.startLine + s) ≤
      (c.startLine + s + mLines.length - 1) + 1
    rw [hsplit]
    omega

theorem memberLoop_wf (est : String → Nat) (c : Chunk) (cn : String)
    (pIndent : Nat) (L : Nat)
    (hcOK : chunkOK L c) (hcSpan : chunkSpan c) :
    ∀ (rest : List String) (i : Nat) (ms : MState) (acc : List Chunk),
      i + rest.length = (splitNl c.text).length →
      1 ≤ i →
      (∀ s, ms.mStart = some s →
        1 ≤ s ∧ s + ms.mLines.length = i ∧ ms.mLines ≠ [] ∧
        (∀ l ∈ ms.mLines, nlFree l)) →
      (∀ l ∈ rest, nlFree l) →
      (∀ x ∈ acc, chunkOK L x ∧ chunkSpan x) →
      ∀ x ∈ memberLoop est c cn pIndent i rest ms acc, chunkOK L x ∧ chunkSpan x := by
  intro rest
  induction rest with
  | nil =>
    intro i ms acc hiN hi1 hms hrest hacc x hx
    unfold memberLoop at hx
    split at hx
    · next s hs =>
      split at hx
      · obtain ⟨hs1, hs2, hs3, hs4⟩ := hms s hs
        rcases pushMember_cases hx with h | h
        · exact hacc x h
        · subst h
          exact mkMember_ok hcOK hcSpan hs1 hs3 hs4 (by simp at hiN; omega)
      · exact hacc x hx
    · exact hacc x hx
  | cons line rest ih =>
    intro i ms acc hiN hi1 hms hrest hacc x hx
    have hlfree : nlFree line := hrest line (List.mem_cons_self _ _)
    have hrest' : ∀ l ∈ rest, nlFree l := fun l hl => hrest l (List.mem_cons_of_mem _ hl)
    have hiN' : (i + 1) + rest.length = (splitNl c.text).length := by
      simp only [List.length_cons] at hiN
      omega
    have hile : i + 1 ≤ (splitNl c.text).length := by
      simp only [List.length_cons] at hiN
      omega
    unfold memberLoop at hx
    dsimp only at hx
    split at hx
    · -- blank or comment line
      split at hx
      · refine ih (i + 1) _ _ hiN' (by omega) ?_ hrest' hacc x hx
        intro s2 hs2
        simp only at hs2
        obtain ⟨a1, a2, a3, a4⟩ := hms s2 hs2
        refine ⟨a1, by simp; omega, by simp, ?_⟩
        intro l hl
        rcases List.mem_append.mp hl with h | h
        · exact a4 l h
        · simp only [List.mem_singleton] at h
          subst h
          exact hlfree
      · next hnone =>
        refine ih (i + 1) _ _ hiN' (by omega) ?_ hrest' hacc x hx
        intro s2 hs2
        simp only at hs2
        rw [hnone] at hs2
        exact absurd hs2 (by simp)
    · split at hx
      · -- new method opens at index i
        refine ih (i + 1) _ _ hiN' (by omega) ?_ hrest' hacc x hx
        intro s hs
        simp only [Option.some_inj] at hs
        subst hs
        refine ⟨by omega, by simp, by simp, ?_⟩
        intro l hl
        simp only [List.mem_singleton] at hl
        subst hl
        exact hlfree
      · split at hx
        · -- still inside a multi-line signature
          refine ih (i + 1) _ _ hiN' (by omega) ?_ hrest' hacc x hx
          intro s hs
          simp only at hs
          obtain ⟨a1, a2, a3, a4⟩ := hms s hs
          refine ⟨a1, by simp; omega, by simp, ?_⟩
          intro l hl
          rcases List.mem_append.mp hl with h | h
          · exact a4 l h
          · simp only [List.mem_singleton] at h
            subst h
            exact hlfree
        · split at hx
          · next s hs =>
            obtain ⟨a1, a2, a3, a4⟩ := hms s hs
            split at hx
            · -- method ends here
              have hmem : chunkOK L (mkMember est c cn s ms.mLines) ∧
                  chunkSpan (mkMember est c cn s ms.mLines) :=
                mkMember_ok hcOK hcSpan a1 a3 a4 (by omega)
              have hacc' : ∀ y ∈ pushMember est c cn s ms.mLines acc,
                  chunkOK L y ∧ chunkSpan y := by
                intro y hy
                rcases pushMember_cases hy with h | h
                · exact hacc y h
                · subst h
                  exact hmem
              split at hx
              · refine ih (i + 1) _ _ hiN' (by omega) ?_ hrest' hacc' x hx
                intro s2 hs2
                simp only [Option.some_inj] at hs2
                subst hs2
                refine ⟨by omega, by simp, by simp, ?_⟩
                intro l hl
                simp only [List.mem_singleton] at hl
                subst hl
                exact hlfree
              · refine ih (i + 1) _ _ hiN' (by omega) ?_ hrest' hacc' x hx
                intro s2 hs2
                simp at hs2
            · -- line is part of the method body
              refine ih (i + 1) _ _ hiN' (by omega) ?_ hrest' hacc x hx
              intro s2 hs2
              simp only at hs2
              obtain ⟨b1, b2, b3, b4⟩ := hms s2 hs2
              refine ⟨b1, by simp; omega, by simp, ?_⟩
              intro l hl
              rcases List.mem_append.mp hl with h | h
              · exact b4 l h
              · simp only [List.mem_singleton] at h
                subst h
                exact hlfree
          · next hnone =>
            refine ih (i + 1) _ _ hiN' (by omega) ?_ hrest' hacc x hx
            intro s2 hs2
            simp only at hs2
            rw [hnone] at hs2
            exact absurd hs2 (by simp)

theorem membersOf_wf (est : String → Nat) (c : Chunk) (L : Nat)
    (hcOK : chunkOK L c) (hcSpan : chunkSpan c) :
    ∀ x ∈ membersOf est c, chunkOK L x ∧ chunkSpan x := by
  intro x hx
  unfold membersOf at hx
  split at hx
  · exact absurd hx (by simp)
  · dsimp only at hx
    split at hx
    · exact absurd hx (by simp)
    · next hlen =>
      refine memberLoop_wf est c _ _ L hcOK hcSpan _ 1 _ _ ?_ (le_refl 1) ?_ ?_
        (by simp) x hx
      · simp only [List.length_drop]
        omega
      · intro s hs
        simp at hs
      · intro l hl
        exact mem_splitNl_nlFree (List.mem_of_mem_drop hl)

theorem extractNestedMethods_wf (est : String → Nat) (cs : List Chunk) (L : Nat)
    (h : ∀ c ∈ cs, chunkOK L c ∧ chunkSpan c) :
    ∀ x ∈ extractNestedMethods est cs, chunkOK L x ∧ chunkSpan x := by
  intro x hx
  unfold extractNestedMethods at hx
  rcases List.mem_flatMap.mp hx with ⟨c0, hc0, hmem⟩
  rcases List.mem_cons.mp hmem with h2 | h2
  · subst h2
    exact h _ hc0
  · exact membersOf_wf est c0 L (h c0 hc0).1 (h c0 hc0).2 x h2

/-! ## Splitter pass bounds and the full-pipeline bounds (C1) -/

theorem splitLoop_wf (est : String → Nat) (target overlap : Nat) (c : Chunk)
    (sig : String) (L : Nat)
    (hcOK : chunkOK L c) (hcSpan : chunkSpan c) :
    ∀ (rem : List String) (i : Nat) (curLines : List String)
      (curTokens segStart : Nat) (result : List Chunk),
      i + rem.length = (splitNl c.text).length →
      segStart + curLines.length = c.startLine + i →
      c.startLine ≤ segStart →
      (∀ x ∈ result, chunkOK L x) →
      ∀ x ∈ splitLoop est target overlap c sig rem i curLines curTokens segStart result,
        chunkOK L x := by
  obtain ⟨hc1, hc2, hc3⟩ := hcOK
  have hspan := hcSpan
  unfold chunkSpan at hspan
  intro rem
  induction rem with
  | nil =>
    intro i curLines curTokens segStart result hiN hseg hs1 hres x hx
    unfold splitLoop at hx
    dsimp only at hx
    split at hx
    · next hne =>
      have hlen1 : 1 ≤ curLines.length := List.length_pos.mpr hne
      split at hx
      · rcases List.mem_append.mp hx with h | h
        · exact hres x h
        · simp only [List.mem_singleton] at h
          subst h
          refine ⟨?_, ?_, ?_⟩
          · show 1 ≤ segStart
            omega
          · show segStart ≤ c.endLine
            have h1 : segStart + curLines.length = c.startLine + i := hseg
            have h2 : (splitNl c.text).length + c.startLine ≤ c.endLine + 1 := hspan
            have h3 : i = (splitNl c.text).length := by simpa using hiN
            omega
          · show c.endLine ≤ L
            omega
      · exact hres x hx
    · exact hres x hx
  | cons line rest ih =>
    intro i curLines curTokens segStart result hiN hseg hs1 hres x hx
    have hiN' : i + 1 + rest.length = (splitNl c.text).length := by
      simp only [List.length_cons] at hiN
      omega
    unfold splitLoop at hx
    split at hx
    · next hcond =>
      have hlen1 : 1 ≤ curLines.length := List.length_pos.mpr hcond.2
      have hovlen := overlapCalc_length est overlap curLines.reverse [] 0
      simp only [List.length_reverse, List.length_nil, Nat.add_zero] at hovlen
      have hile : i + 1 ≤ (splitNl c.text).length := by
        simp only [List.length_cons] at hiN
        omega
      refine ih (i + 1) _ _ _ _ hiN' ?_ ?_ ?_ x hx
      · simp only [List.length_append, List.length_singleton]
        omega
      · omega
      · intro y hy
        rcases List.mem_append.mp hy with h | h
        · exact hres y h
        · simp only [List.mem_singleton] at h
          subst h
          refine ⟨?_, ?_, ?_⟩
          · show 1 ≤ segStart
            omega
          · show segStart ≤ segStart + curLines.length - 1
            omega
          · show segStart + curLines.length - 1 ≤ L
            have h1 : segStart + curLines.length = c.startLine + i := hseg
            have h2 : (splitNl c.text).length + c.startLine ≤ c.endLine + 1 := hspan
            omega
    · refine ih (i + 1) _ _ _ _ hiN' ?_ hs1 hres x hx
      simp only [List.length_append, List.length_singleton]
      omega

theorem atlStep_wf (est : String → Nat) (target overlap : Nat) (L : Nat)
    (result : List Chunk) (c : Chunk)
    (hc : chunkOK L c ∧ chunkSpan c)
    (hres : ∀ x ∈ result, chunkOK L x) :
    ∀ x ∈ atlStep est target overlap result c, chunkOK L x := by
  intro x hx
  unfold atlStep at hx
  split at hx
  · rcases List.mem_append.mp hx with h | h
    · exact hres x h
    · simp only [List.mem_singleton] at h
      subst h
      exact hc.1
  · refine splitLoop_wf est target overlap c _ L hc.1 hc.2 _ 0 [] 0 c.startLine
      result (by simp) (by simp) (le_refl _) hres x hx

theorem applyTokenLimits_wf (est : String → Nat) (target overlap : Nat)
    (cs : List Chunk) (L : Nat)
    (h : ∀ c ∈ cs, chunkOK L c ∧ chunkSpan c) :
    ∀ x ∈ applyTokenLimits est target overlap cs, chunkOK L x := by
  unfold applyTokenLimits
  suffices hgen : ∀ (rem acc : List Chunk), (∀ y ∈ rem, chunkOK L y ∧ chunkSpan y) →
      (∀ x ∈ acc, chunkOK L x) →
      ∀ x ∈ rem.foldl (atlStep est target overlap) acc, chunkOK L x by
    exact hgen cs [] h (by simp)
  intro rem
  induction rem with
  | nil => intro acc _ hacc; exact hacc
  | cons d rem ih =>
    intro acc hrem hacc
    exact ih _ (fun y hy => hrem y (List.mem_cons_of_mem d hy))
      (atlStep_wf est target overlap L acc d (hrem d (List.mem_cons_self d rem)) hacc)

/-- C1 (confirmed): for every input text and configuration, every chunk
produced by the segmenter pass, every chunk of the extractor pass (parents
and added members alike), and every chunk in the final output of the
token-budget splitter satisfies
`1 ≤ startLine ≤ endLine ≤ lineCount`, where `lineCount` is the number of
lines of the input. -/
theorem C1_line_bounds (est : String → Nat) (target overlap : Nat)
    (content : String) :
    (∀ c ∈ segmenterChunks est content,
      1 ≤ c.startLine ∧ c.startLine ≤ c.endLine ∧ c.endLine ≤ lineCountOf content) ∧
    (∀ c ∈ extractNestedMethods est (segmenterChunks est content),
      1 ≤ c.startLine ∧ c.startLine ≤ c.endLine ∧ c.endLine ≤ lineCountOf content) ∧
    (∀ c ∈ chunkVerseFile est target overlap content,
      1 ≤ c.startLine ∧ c.startLine ≤ c.endLine ∧ c.endLine ≤ lineCountOf content) := by
  have hseg := (segmenter_invariants est content).1
  have hext := extractNestedMethods_wf est (segmenterChunks est content)
    (splitLines content).length hseg
  refine ⟨fun c hc => (hseg c hc).1, fun c hc => (hext c hc).1, ?_⟩
  intro c hc
  unfold chunkVerseFile at hc
  exact applyTokenLimits_wf est target overlap _ (splitLines content).length hext c hc

/-- Witness for C1 at a concrete run: the single enum chunk of the one-line
enum input is within the one-line file's bounds. -/
theorem C1_witness :
    1 ≤ (Chunk.startLine
      { text := "rotation_direction<public>:= enum{Left, Right}",
        startLine := 1, endLine := 1, tokenCount := 12, type := "enum",
        signature := "rotation_direction<public>:= enum{Left, Right}",
        parentClass := none }) ∧
    (1 : Nat) ≤ 1 ∧
    (1 : Nat) ≤ lineCountOf "rotation_direction<public>:= enum{Left, Right}" :=
  (C1_line_bounds est4 100 20 "rotation_direction<public>:= enum{Left, Right}").2.2
    _ (by decide)

end VC
